import Mathlib

/-!
Verification of the sudoku solver (SudokuObject / SudokuPencilMark / SudokuGA).

Shallow embedding conventions:
* A pencil-mark board (`Board`) is a total function `Nat → Nat → Nat`;
  only the cells with both coordinates `< 9` are ever read or written,
  matching the Python `_grid` 9×9 list of lists.  `0` means "unknown".
* A genetic-algorithm grid (`Grid`) is a `List (List Nat)` of rows, the
  direct image of the Python `_grid` field.
* The shared global random source `random` is modelled by an oracle
  `R : Nat → Nat` together with a running counter `t`: the `t`-th random
  draw of the execution is `R t`.  Every function that consumes
  randomness threads the counter, so distinct draws read distinct
  indices and every concrete execution of the Python program corresponds
  to some oracle `R`.
-/

namespace Sudoku

/-- `SudokuObject.related_coords`, the row part:
`[(i, rel_j) for rel_j in range(9) if rel_j != j]`. -/
def rel_row (i j : Nat) : List (Nat × Nat) :=
  ((List.range 9).filter (fun rel_j => rel_j != j)).map (fun rel_j => (i, rel_j))

/-- `SudokuObject.related_coords`, the column part:
`[(rel_i, j) for rel_i in range(9) if rel_i != i]`. -/
def rel_col (i j : Nat) : List (Nat × Nat) :=
  ((List.range 9).filter (fun rel_i => rel_i != i)).map (fun rel_i => (rel_i, j))

/-- `SudokuObject.related_coords`, the block part: the 3×3 block anchored at
`((i // 3) * 3, (j // 3) * 3)`, keeping `(blk_i, blk_j)` only when
`blk_i != i and blk_j != j`. -/
def rel_blk (i j : Nat) : List (Nat × Nat) :=
  (List.range 3).flatMap (fun a =>
    ((List.range 3).filter (fun b =>
        (i / 3 * 3 + a != i) && (j / 3 * 3 + b != j))).map
      (fun b => (i / 3 * 3 + a, j / 3 * 3 + b)))

/-- `SudokuObject.related_coords(i, j)`: the Python function returns
`set(rel_row + rel_col + rel_blk)`; set membership agrees with membership
in the concatenated list. -/
def related_coords (i j : Nat) : List (Nat × Nat) :=
  rel_row i j ++ rel_col i j ++ rel_blk i j

/-- The row-major traversal `for i in range(9): for j in range(9)` used by
both passes of `SudokuPencilMark.run`. -/
def allCoords : List (Nat × Nat) :=
  (List.range 9).flatMap (fun i => (List.range 9).map (fun j => (i, j)))

lemma mem_allCoords {c : Nat × Nat} : c ∈ allCoords ↔ c.1 < 9 ∧ c.2 < 9 := by
  cases c with
  | mk i j =>
    simp [allCoords, List.mem_flatMap, List.mem_range]

/-- Every coordinate produced by `related_coords` lies on the 9×9 grid. -/
lemma related_coords_bounds {i j : Nat} (hi : i < 9) (hj : j < 9)
    {p : Nat × Nat} (hp : p ∈ related_coords i j) : p.1 < 9 ∧ p.2 < 9 := by
  rcases p with ⟨a, b⟩
  simp only [related_coords, rel_row, rel_col, rel_blk, List.mem_append,
    List.mem_map, List.mem_filter, List.mem_range, List.mem_flatMap] at hp
  rcases hp with (⟨x, ⟨hx, _⟩, hxe⟩ | ⟨x, ⟨hx, _⟩, hxe⟩) | ⟨x, hx, y, ⟨hy, _⟩, hxe⟩
  · cases hxe; omega
  · cases hxe; omega
  · simp only [List.mem_filter, List.mem_range] at *
    cases hxe; omega

/-- Membership in `related_coords` over the grid, characterised against the
row/column/block relation.  Settled by exhaustive evaluation. -/
lemma mem_related_coords_iff :
    ∀ i ∈ List.range 9, ∀ j ∈ List.range 9, ∀ p ∈ List.range 9, ∀ q ∈ List.range 9,
      ((p, q) ∈ related_coords i j ↔
        (¬(p = i ∧ q = j) ∧ (p = i ∨ q = j ∨ (p / 3 = i / 3 ∧ q / 3 = j / 3)))) := by
  decide

/-- Membership in the block part `rel_blk` alone: exactly the block-mates
differing from `(i, j)` in both coordinates. -/
lemma mem_rel_blk_iff :
    ∀ i ∈ List.range 9, ∀ j ∈ List.range 9, ∀ p ∈ List.range 9, ∀ q ∈ List.range 9,
      ((p, q) ∈ rel_blk i j ↔
        (p / 3 = i / 3 ∧ q / 3 = j / 3 ∧ p ≠ i ∧ q ≠ j)) := by
  decide

/-- C1: For every grid coordinate `(i, j)`, the set returned by
`related_coords i j` consists exactly of the grid coordinates that share
row `i`, share column `j`, or lie in the same 3×3 block as `(i, j)`,
excluding `(i, j)` itself: every member is on the grid, and membership is
equivalent to the row/column/block relation. -/
theorem related_coords_correct (i j : Nat) (hi : i < 9) (hj : j < 9) :
    (∀ p : Nat × Nat, p ∈ related_coords i j → p.1 < 9 ∧ p.2 < 9) ∧
    (∀ p q, p < 9 → q < 9 →
      ((p, q) ∈ related_coords i j ↔
        (¬(p = i ∧ q = j) ∧
          (p = i ∨ q = j ∨ (p / 3 = i / 3 ∧ q / 3 = j / 3))))) := by
  refine ⟨fun p hp => related_coords_bounds hi hj hp, fun p q hp hq => ?_⟩
  exact mem_related_coords_iff i (List.mem_range.mpr hi) j (List.mem_range.mpr hj)
    p (List.mem_range.mpr hp) q (List.mem_range.mpr hq)

theorem related_coords_correct_witness :
    (∀ p : Nat × Nat, p ∈ related_coords 0 0 → p.1 < 9 ∧ p.2 < 9) ∧
    (∀ p q, p < 9 → q < 9 →
      ((p, q) ∈ related_coords 0 0 ↔
        (¬(p = 0 ∧ q = 0) ∧
          (p = 0 ∨ q = 0 ∨ (p / 3 = 0 / 3 ∧ q / 3 = 0 / 3))))) :=
  related_coords_correct 0 0 (by decide) (by decide)

/-- C2, counterexample: at `(0, 0)` all eight block-mates are members of
`related_coords 0 0` — the block-mates the block loop skips are supplied
by the row and column lists — so no block cell at all (let alone two) is
absent from the returned set there. -/
theorem related_coords_block_cex :
    (0, 1) ∈ related_coords 0 0 ∧ (0, 2) ∈ related_coords 0 0 ∧
    (1, 0) ∈ related_coords 0 0 ∧ (1, 1) ∈ related_coords 0 0 ∧
    (1, 2) ∈ related_coords 0 0 ∧ (2, 0) ∈ related_coords 0 0 ∧
    (2, 1) ∈ related_coords 0 0 ∧ (2, 2) ∈ related_coords 0 0 := by
  decide

/-- C2, amended: the block traversal `rel_blk` by itself keeps only the
block-mates differing from `(i, j)` in both row and column (omitting the
four sharing its row or column), but the full returned set still contains
every block-mate other than `(i, j)` itself, because the omitted ones
appear in the row and column lists. -/
theorem related_coords_block_exclusion (i j : Nat) (hi : i < 9) (hj : j < 9) :
    (∀ p q, p < 9 → q < 9 →
      ((p, q) ∈ rel_blk i j ↔
        (p / 3 = i / 3 ∧ q / 3 = j / 3 ∧ p ≠ i ∧ q ≠ j))) ∧
    (∀ p q, p < 9 → q < 9 → p / 3 = i / 3 → q / 3 = j / 3 →
      ¬(p = i ∧ q = j) → (p, q) ∈ related_coords i j) := by
  constructor
  · intro p q hp hq
    exact mem_rel_blk_iff i (List.mem_range.mpr hi) j (List.mem_range.mpr hj)
      p (List.mem_range.mpr hp) q (List.mem_range.mpr hq)
  · intro p q hp hq h1 h2 hne
    exact (mem_related_coords_iff i (List.mem_range.mpr hi) j (List.mem_range.mpr hj)
      p (List.mem_range.mpr hp) q (List.mem_range.mpr hq)).mpr
      ⟨hne, Or.inr (Or.inr ⟨h1, h2⟩)⟩

theorem related_coords_block_exclusion_witness :
    (∀ p q, p < 9 → q < 9 →
      ((p, q) ∈ rel_blk 4 4 ↔
        (p / 3 = 4 / 3 ∧ q / 3 = 4 / 3 ∧ p ≠ 4 ∧ q ≠ 4))) ∧
    (∀ p q, p < 9 → q < 9 → p / 3 = 4 / 3 → q / 3 = 4 / 3 →
      ¬(p = 4 ∧ q = 4) → (p, q) ∈ related_coords 4 4) :=
  related_coords_block_exclusion 4 4 (by decide) (by decide)

/-! ## The pencil-mark propagator (`SudokuPencilMark`) -/

/-- A pencil-mark board: cell `(i, j)` of the Python 9×9 `_grid` holds
`b i j`; `0` means unknown.  Cells outside the grid are never accessed. -/
abbrev Board : Type := Nat → Nat → Nat

/-- `_possible_values_grid`: for each cell a 9-vector of booleans,
`g (i, j) k` meaning "value `k+1` is still possible at `(i, j)`". -/
abbrev PVG : Type := (Nat × Nat) → Nat → Bool

/-- The initial `_possible_values_grid`: all `True`. -/
def initPVG : PVG := fun _ _ => true

/-- One cell of the constrain pass of `SudokuPencilMark.run`: when the cell
`c` holds a fixed value `val ≠ 0`, collapse `c`'s own vector to the
singleton `{val}` and clear position `val - 1` from every related cell.
The Python loop body mutates the grid in place; this is its effect as a
function of the whole grid (the related set never contains `c` itself,
so the two updates do not interfere). -/
def constrainCell (b : Board) (g : PVG) (c : Nat × Nat) : PVG := fun d k =>
  if b c.1 c.2 = 0 then g d k
  else if d = c then decide (k + 1 = b c.1 c.2)
  else if d ∈ related_coords c.1 c.2 ∧ k + 1 = b c.1 c.2 then false
  else g d k

/-- The full constrain pass: the row-major `for i: for j:` loop over the
board applying `constrainCell`. -/
def constrainPass (b : Board) (g : PVG) : PVG :=
  allCoords.foldl (constrainCell b) g

/-- `cell.count(True)` over the 9 booleans of one cell. -/
def countTrue (v : Nat → Bool) : Nat :=
  (List.range 9).countP (fun k => v k)

/-- `cell.index(True)`: the first position holding `True` (only ever used
when `countTrue v = 1`, where it is total; `0` as the don't-care default). -/
def firstTrue (v : Nat → Bool) : Nat :=
  (((List.range 9).find? (fun k => v k)).getD 0)

/-- The reveal pass of `SudokuPencilMark.run`: every grid cell that is
still `0` and whose candidate vector has exactly one `True` receives that
position's value.  Each loop iteration writes only the cell it is
visiting, so the pass is this pointwise function of the original board. -/
def revealBoard (b : Board) (g : PVG) : Board := fun i j =>
  if i < 9 ∧ j < 9 ∧ b i j = 0 ∧ countTrue (g (i, j)) = 1 then
    firstTrue (g (i, j)) + 1
  else b i j

/-- `values_found`: how many cells the reveal pass writes. -/
def valuesFound (b : Board) (g : PVG) : Nat :=
  allCoords.countP (fun c => decide (b c.1 c.2 = 0 ∧ countTrue (g c) = 1))

/-- Number of unknown cells of the board. -/
def numZeros (b : Board) : Nat :=
  allCoords.countP (fun c => decide (b c.1 c.2 = 0))

/-- `Elim b d k`: some fixed cell of `b` on the grid is related to `d` and
holds value `k+1`, so the constrain pass clears position `k` at `d`. -/
def Elim (b : Board) (d : Nat × Nat) (k : Nat) : Bool :=
  allCoords.any (fun c => decide (d ∈ related_coords c.1 c.2) && (b c.1 c.2 == k + 1))

lemma countP_and_split (p q : α → Bool) (l : List α) :
    l.countP (fun a => p a && q a) + l.countP (fun a => p a && !q a) = l.countP p := by
  induction l with
  | nil => simp
  | cons x xs ih =>
    by_cases hp : p x <;> by_cases hq : q x <;>
      simp [List.countP_cons, hp, hq] <;> omega

lemma countP_and_le (p q : α → Bool) (l : List α) :
    l.countP (fun a => p a && q a) ≤ l.countP p := by
  have h := countP_and_split p q l
  omega

/-- Effect of the whole constrain-pass fold on a cell the board leaves
unknown: the candidate vector keeps exactly the values not eliminated by
a related fixed cell occurring in the traversed list. -/
lemma foldl_constrainCell_eq (b : Board) (d : Nat × Nat) (k : Nat)
    (hd : b d.1 d.2 = 0) :
    ∀ (L : List (Nat × Nat)) (g : PVG),
      (L.foldl (constrainCell b) g) d k =
        (g d k &&
          !(L.any (fun c => decide (d ∈ related_coords c.1 c.2) && (b c.1 c.2 == k + 1)))) := by
  intro L
  induction L with
  | nil => intro g; simp
  | cons c L ih =>
    intro g
    rw [List.foldl_cons, ih]
    have hcell : constrainCell b g c d k =
        (g d k && !(decide (d ∈ related_coords c.1 c.2) && (b c.1 c.2 == k + 1))) := by
      unfold constrainCell
      by_cases h0 : b c.1 c.2 = 0
      · simp [h0]
      · have hdc : d ≠ c := by
          intro h; rw [h] at hd; exact h0 hd
        by_cases hrel : d ∈ related_coords c.1 c.2 ∧ k + 1 = b c.1 c.2
        · simp [h0, hdc, hrel, hrel.1, hrel.2]
        · simp only [if_neg h0, if_neg hdc, if_neg hrel]
          rcases Decidable.not_and_iff_or_not.mp hrel with h | h
          · simp [h]
          · have : (b c.1 c.2 == k + 1) = false := by
              simp only [beq_eq_false_iff_ne]
              omega
            simp [this]
    rw [hcell, List.any_cons]
    cases g d k <;> cases hm : decide (d ∈ related_coords c.1 c.2) <;>
      cases he : (b c.1 c.2 == k + 1) <;> simp

/-- The constrain pass at a cell the board leaves unknown. -/
lemma constrainPass_eq (b : Board) (g : PVG) (d : Nat × Nat) (k : Nat)
    (hd : b d.1 d.2 = 0) :
    constrainPass b g d k = (g d k && !Elim b d k) := by
  rw [constrainPass, foldl_constrainCell_eq b d k hd allCoords g, Elim]

/-- Board extension: nothing the reveal pass does disturbs a fixed cell. -/
lemma revealBoard_fixed (b : Board) (g : PVG) {i j : Nat} (h : b i j ≠ 0) :
    revealBoard b g i j = b i j := by
  unfold revealBoard
  rw [if_neg]
  rintro ⟨-, -, h0, -⟩
  exact h h0

/-- A cell that is zero after the reveal pass was zero before it. -/
lemma revealBoard_zero (b : Board) (g : PVG) {i j : Nat}
    (h : revealBoard b g i j = 0) : b i j = 0 := by
  by_contra hb
  rw [revealBoard_fixed b g hb] at h
  exact hb h

/-- `Elim` is monotone along board extension. -/
lemma Elim_mono {b b' : Board}
    (hext : ∀ i j, b i j ≠ 0 → b' i j = b i j) (d : Nat × Nat) (k : Nat)
    (h : Elim b d k = true) : Elim b' d k = true := by
  rw [Elim, List.any_eq_true] at h ⊢
  obtain ⟨c, hc, hprop⟩ := h
  refine ⟨c, hc, ?_⟩
  rw [Bool.and_eq_true, beq_iff_eq] at hprop ⊢
  refine ⟨hprop.1, ?_⟩
  rw [hext c.1 c.2 (by omega)]
  exact hprop.2

/-- Counting: the reveal pass turns exactly `valuesFound b g` unknown cells
into known ones. -/
lemma numZeros_revealBoard (b : Board) (g : PVG) :
    numZeros (revealBoard b g) + valuesFound b g = numZeros b := by
  unfold numZeros valuesFound
  have hcongr : allCoords.countP (fun c => decide (revealBoard b g c.1 c.2 = 0)) =
      allCoords.countP (fun c =>
        decide (b c.1 c.2 = 0) && !(decide (b c.1 c.2 = 0 ∧ countTrue (g c) = 1))) := by
    apply List.countP_congr
    intro c hc
    have hb := mem_allCoords.mp hc
    by_cases h0 : b c.1 c.2 = 0
    · by_cases h1 : countTrue (g c) = 1
      · have : revealBoard b g c.1 c.2 = firstTrue (g c) + 1 := by
          unfold revealBoard
          rw [if_pos ⟨hb.1, hb.2, h0, h1⟩]
        simp [this, h0, h1]
      · have : revealBoard b g c.1 c.2 = b c.1 c.2 := by
          unfold revealBoard
          rw [if_neg]
          rintro ⟨-, -, -, hc1⟩
          exact h1 hc1
        simp [this, h0, h1]
    · have : revealBoard b g c.1 c.2 = b c.1 c.2 := revealBoard_fixed b g h0
      simp [this, h0]
  have hvf : allCoords.countP (fun c => decide (b c.1 c.2 = 0 ∧ countTrue (g c) = 1)) =
      allCoords.countP (fun c =>
        decide (b c.1 c.2 = 0) && decide (b c.1 c.2 = 0 ∧ countTrue (g c) = 1)) := by
    apply List.countP_congr
    intro c _
    by_cases h0 : b c.1 c.2 = 0 <;> by_cases h1 : countTrue (g c) = 1 <;> simp [h0, h1]
  rw [hcongr, hvf]
  have := countP_and_split (fun c => decide (b c.1 c.2 = 0))
    (fun c => decide (b c.1 c.2 = 0 ∧ countTrue (g c) = 1)) allCoords
  omega

lemma valuesFound_le_numZeros (b : Board) (g : PVG) :
    valuesFound b g ≤ numZeros b := by
  have := numZeros_revealBoard b g
  omega

/-- The `while True:` loop of `SudokuPencilMark.run`.  Each iteration
performs the constrain pass, then the reveal pass, and stops as soon as
a round reveals nothing (`values_found == 0`); it terminates because every
continuing round strictly decreases the number of unknown cells. -/
def runAux (b : Board) (g : PVG) : Board :=
  if _h : valuesFound b (constrainPass b g) = 0 then b
  else runAux (revealBoard b (constrainPass b g)) (constrainPass b g)
termination_by numZeros b
decreasing_by
  have h1 := numZeros_revealBoard b (constrainPass b g)
  omega

/-- `SudokuPencilMark(sudoku).run()`: the loop started on the all-`True`
candidate grid. -/
def pencil_run (b : Board) : Board := runAux b initPVG

/-- Loop invariant relating the current candidate grid to the current
board: at an unknown cell, every position not (yet) eliminated by a fixed
related cell is still `True`.  It holds for the all-`True` initial grid and
is preserved by a constrain-then-reveal round. -/
def Pre (b : Board) (g : PVG) : Prop :=
  ∀ (d : Nat × Nat) (k : Nat), b d.1 d.2 = 0 → Elim b d k = false → g d k = true

lemma pre_initPVG (b : Board) : Pre b initPVG := by
  intro d k _ _
  rfl

lemma pre_step {b : Board} {g : PVG} (hpre : Pre b g) :
    Pre (revealBoard b (constrainPass b g)) (constrainPass b g) := by
  intro d k hd0 helim
  have hb0 : b d.1 d.2 = 0 := revealBoard_zero _ _ hd0
  have hext : ∀ i j, b i j ≠ 0 → revealBoard b (constrainPass b g) i j = b i j :=
    fun i j h => revealBoard_fixed _ _ h
  have helim0 : Elim b d k = false := by
    by_contra h
    rw [Elim_mono hext d k (by revert h; cases Elim b d k <;> simp)] at helim
    cases helim
  rw [constrainPass_eq b g d k hb0, hpre d k hb0 helim0, helim0]
  rfl

/-- Under the invariant, the reveal pass cannot tell the accumulated
candidate grid from a fresh all-`True` grid constrained once by the same
board: on unknown cells they agree pointwise. -/
lemma constrainPass_agree {b : Board} {g : PVG} (hpre : Pre b g)
    (d : Nat × Nat) (hd : b d.1 d.2 = 0) (k : Nat) :
    constrainPass b g d k = constrainPass b initPVG d k := by
  rw [constrainPass_eq b g d k hd, constrainPass_eq b initPVG d k hd]
  cases helim : Elim b d k
  · rw [hpre d k hd helim]
    rfl
  · simp

lemma valuesFound_agree {b : Board} {g : PVG} (hpre : Pre b g) :
    valuesFound b (constrainPass b g) = valuesFound b (constrainPass b initPVG) := by
  unfold valuesFound
  apply List.countP_congr
  intro c _
  by_cases h0 : b c.1 c.2 = 0
  · have hcnt : countTrue (constrainPass b g c) = countTrue (constrainPass b initPVG c) := by
      unfold countTrue
      apply List.countP_congr
      intro k _
      rw [constrainPass_agree hpre c h0 k]
    simp [hcnt]
  · simp [h0]

/-- The loop result is a genuine fixed point: started from any state
satisfying the invariant, a fresh constrain pass on the final board
reveals nothing. -/
lemma runAux_fixpoint :
    ∀ (n : Nat) (b : Board) (g : PVG), numZeros b ≤ n → Pre b g →
      valuesFound (runAux b g) (constrainPass (runAux b g) initPVG) = 0 := by
  intro n
  induction n with
  | zero =>
    intro b g hn hpre
    have hle := valuesFound_le_numZeros b (constrainPass b g)
    have hvf : valuesFound b (constrainPass b g) = 0 := by omega
    rw [runAux, dif_pos hvf]
    rw [← valuesFound_agree hpre]
    exact hvf
  | succ n ih =>
    intro b g hn hpre
    by_cases hvf : valuesFound b (constrainPass b g) = 0
    · rw [runAux, dif_pos hvf, ← valuesFound_agree hpre]
      exact hvf
    · rw [runAux, dif_neg hvf]
      have h1 := numZeros_revealBoard b (constrainPass b g)
      exact ih _ _ (by omega) (pre_step hpre)

/-- States `(board, candidate grid)` visited by `SudokuPencilMark.run` when
started on `b0`: the initial state, and every state produced by a
constrain-then-reveal round that found at least one value (the condition
under which the `while` loop continues). -/
inductive PencilReaches (b0 : Board) : Board → PVG → Prop
  | init : PencilReaches b0 b0 initPVG
  | step {b : Board} {g : PVG} : PencilReaches b0 b g →
      valuesFound b (constrainPass b g) ≠ 0 →
      PencilReaches b0 (revealBoard b (constrainPass b g)) (constrainPass b g)

lemma reaches_pre {b0 b : Board} {g : PVG} (h : PencilReaches b0 b g) : Pre b g := by
  induction h with
  | init => exact pre_initPVG b0
  | step _ _ ih => exact pre_step ih

lemma firstTrue_true {v : Nat → Bool} (h : countTrue v = 1) :
    v (firstTrue v) = true := by
  have hpos : 0 < (List.range 9).countP (fun k => v k) := by
    unfold countTrue at h; omega
  rw [List.countP_pos_iff] at hpos
  obtain ⟨a, ha, hva⟩ := hpos
  unfold firstTrue
  cases hf : (List.range 9).find? (fun k => v k) with
  | none =>
    have := List.find?_eq_none.mp hf a ha
    simp [hva] at this
  | some k0 => simpa using List.find?_some hf

/-- C3: The propagator is idempotent: running `SudokuPencilMark.run` to
completion and then running a fresh `SudokuPencilMark.run` (with a fresh
all-`True` candidate grid) on the resulting board leaves that board
unchanged — the second run's first round finds no values, so it stops
immediately. -/
theorem pencil_run_idempotent (b : Board) :
    pencil_run (pencil_run b) = pencil_run b := by
  have hfix := runAux_fixpoint (numZeros b) b initPVG le_rfl (pre_initPVG b)
  show runAux (runAux b initPVG) initPVG = runAux b initPVG
  rw [runAux, dif_pos hfix]

/-- The reveal pass as the Python loop actually performs it: sequentially
over the board coordinates in row-major order, reading and writing the
grid in place.  Each iteration touches only the cell it visits (which is
why the round-level `revealBoard` above describes the pass's final board
pointwise), but the sequential form exhibits the board as it stands in
the middle of a pass. -/
def revealPassFrom (g : PVG) : List (Nat × Nat) → Board → Board
  | [], b => b
  | c :: cs, b =>
    revealPassFrom g cs (fun i j =>
      if i = c.1 ∧ j = c.2 ∧ b c.1 c.2 = 0 ∧ countTrue (g c) = 1 then
        firstTrue (g c) + 1
      else b i j)

/-- Row 0 holds `1..7` with two unknown cells, and two clues `8` block the
value 8 from columns 7 and 8: the first propagator round then narrows both
`(0, 7)` and `(0, 8)` to the singleton candidate `{9}`. -/
def pencilCexBoard : Board := fun i j =>
  if i = 0 ∧ j < 7 then j + 1
  else if i = 3 ∧ j = 7 then 8
  else if i = 4 ∧ j = 8 then 8
  else 0

/-- C4, counterexample: the moment-of-writing property fails on the
program.  In the first round's sequential reveal pass on
`pencilCexBoard` (candidate grid `constrainPass pencilCexBoard initPVG`),
after the first eight cells of the row-major order have been visited the
pass has already written `9` into `(0, 7)`; at that moment `(0, 8)` still
holds `0`, and visiting it writes `9` there as well — a value equal to a
non-zero value already present in its row at the moment of writing. -/
theorem pencil_mark_sound_cex :
    pencilCexBoard 0 8 = 0 ∧
    revealPassFrom (constrainPass pencilCexBoard initPVG)
      (allCoords.take 8) pencilCexBoard 0 7 = 9 ∧
    revealPassFrom (constrainPass pencilCexBoard initPVG)
      (allCoords.take 8) pencilCexBoard 0 8 = 0 ∧
    revealPassFrom (constrainPass pencilCexBoard initPVG)
      (allCoords.take 9) pencilCexBoard 0 8 = 9 := by
  refine ⟨by decide, by decide, by decide, by decide⟩

/-- C4, amended: propagator soundness relative to the round state.
Whenever a round of `SudokuPencilMark.run` (reached from the initial
board `b0`) writes a value into cell `(i, j)`, that cell held `0` when
the round's reveal pass started (and still when the pass reached it, as
earlier iterations only write other cells), and the written value differs
from every value present in row `i`, in column `j`, and in the 3×3 block
of `(i, j)` on the board as left by all previous rounds (in particular
from every non-zero such value).  Values written earlier in the same
sequential reveal pass are not re-checked, and may collide with it (see
the counterexample). -/
theorem pencil_mark_sound (b0 b : Board) (g : PVG)
    (hre : PencilReaches b0 b g) (i j : Nat) (hi : i < 9) (hj : j < 9)
    (hw : revealBoard b (constrainPass b g) i j ≠ b i j) :
    b i j = 0 ∧
    (∀ j2, j2 < 9 → j2 ≠ j →
      b i j2 ≠ revealBoard b (constrainPass b g) i j) ∧
    (∀ i2, i2 < 9 → i2 ≠ i →
      b i2 j ≠ revealBoard b (constrainPass b g) i j) ∧
    (∀ i2 j2, i2 < 9 → j2 < 9 → i2 / 3 = i / 3 → j2 / 3 = j / 3 →
      ¬(i2 = i ∧ j2 = j) →
      b i2 j2 ≠ revealBoard b (constrainPass b g) i j) := by
  have hpre := reaches_pre hre
  by_cases hP : i < 9 ∧ j < 9 ∧ b i j = 0 ∧
      countTrue (constrainPass b g (i, j)) = 1
  · obtain ⟨-, -, h0, h1⟩ := hP
    have hval : revealBoard b (constrainPass b g) i j =
        firstTrue (constrainPass b g (i, j)) + 1 := by
      unfold revealBoard
      rw [if_pos ⟨hi, hj, h0, h1⟩]
    set k0 := firstTrue (constrainPass b g (i, j)) with hk0
    have htrue : constrainPass b g (i, j) k0 = true := firstTrue_true h1
    have helim : Elim b (i, j) k0 = false := by
      rw [constrainPass_eq b g (i, j) k0 h0] at htrue
      rcases Bool.and_eq_true_iff.mp htrue with ⟨-, hne⟩
      revert hne
      cases Elim b (i, j) k0 <;> simp
    have habs : ∀ i2 j2, i2 < 9 → j2 < 9 →
        (i, j) ∈ related_coords i2 j2 → b i2 j2 ≠ k0 + 1 := by
      intro i2 j2 hi2 hj2 hmem hbv
      have : Elim b (i, j) k0 = true := by
        rw [Elim, List.any_eq_true]
        refine ⟨(i2, j2), mem_allCoords.mpr ⟨hi2, hj2⟩, ?_⟩
        simp [hmem, hbv]
      rw [this] at helim
      cases helim
    refine ⟨h0, ?_, ?_, ?_⟩
    · intro j2 hj2 hne
      rw [hval]
      have hmem : (i, j) ∈ related_coords i j2 :=
        ((mem_related_coords_iff i (List.mem_range.mpr hi) j2 (List.mem_range.mpr hj2)
          i (List.mem_range.mpr hi) j (List.mem_range.mpr hj)).mpr
          (by constructor <;> [rintro ⟨-, h⟩; skip] <;> tauto))
      exact habs i j2 hi hj2 hmem
    · intro i2 hi2 hne
      rw [hval]
      have hmem : (i, j) ∈ related_coords i2 j :=
        ((mem_related_coords_iff i2 (List.mem_range.mpr hi2) j (List.mem_range.mpr hj)
          i (List.mem_range.mpr hi) j (List.mem_range.mpr hj)).mpr
          (by constructor <;> [rintro ⟨h, -⟩; skip] <;> tauto))
      exact habs i2 j hi2 hj hmem
    · intro i2 j2 hi2 hj2 hbi hbj hne
      rw [hval]
      have hmem : (i, j) ∈ related_coords i2 j2 :=
        ((mem_related_coords_iff i2 (List.mem_range.mpr hi2) j2 (List.mem_range.mpr hj2)
          i (List.mem_range.mpr hi) j (List.mem_range.mpr hj)).mpr
          (by refine ⟨?_, Or.inr (Or.inr ⟨hbi.symm, hbj.symm⟩)⟩
              rintro ⟨rfl, rfl⟩
              exact hne ⟨rfl, rfl⟩))
      exact habs i2 j2 hi2 hj2 hmem
  · exfalso
    apply hw
    unfold revealBoard
    rw [if_neg]
    intro hc
    exact hP ⟨hc.1, hc.2.1, hc.2.2.1, hc.2.2.2⟩

/-- A concrete board whose row 0 is `1..8` followed by an unknown cell:
the propagator's first round writes `9` into `(0, 8)`. -/
def pencilWitnessBoard : Board := fun i j =>
  if i = 0 ∧ j < 8 then j + 1 else 0

theorem pencil_mark_sound_witness :
    pencilWitnessBoard 0 8 = 0 ∧
    (∀ j2, j2 < 9 → j2 ≠ 8 →
      pencilWitnessBoard 0 j2 ≠
        revealBoard pencilWitnessBoard
          (constrainPass pencilWitnessBoard initPVG) 0 8) ∧
    (∀ i2, i2 < 9 → i2 ≠ 0 →
      pencilWitnessBoard i2 8 ≠
        revealBoard pencilWitnessBoard
          (constrainPass pencilWitnessBoard initPVG) 0 8) ∧
    (∀ i2 j2, i2 < 9 → j2 < 9 → i2 / 3 = 0 / 3 → j2 / 3 = 8 / 3 →
      ¬(i2 = 0 ∧ j2 = 8) →
      pencilWitnessBoard i2 j2 ≠
        revealBoard pencilWitnessBoard
          (constrainPass pencilWitnessBoard initPVG) 0 8) :=
  pencil_mark_sound pencilWitnessBoard pencilWitnessBoard initPVG
    PencilReaches.init 0 8 (by decide) (by decide) (by decide)

/-! ## The genetic algorithm (`SudokuGA`)

The Python `random` module is modelled by an oracle `R : Nat → Nat` and a
running draw counter `t` (see the header): `rd.choice(l)` is
`l.getD (R t % l.length) _`, `rd.randint(a, b)` is `a + R t % (b - a + 1)`,
and `rd.sample` / `rd.shuffle` draw one index per picked element.  Every
outcome of the Python program is realised by some `R`. -/

/-- A `SudokuObject._grid`: the list of its nine rows. -/
abbrev Grid : Type := List (List Nat)

/-- `self._grid[i][j]`. -/
def cell (g : Grid) (i j : Nat) : Nat := (g.getD i []).getD j 0

/-- `SudokuObject.whatis_rowlist(i, j)` (returns a copy of row `i`;
the `j` argument is unused, as in the source). -/
def whatis_rowlist (g : Grid) (i _j : Nat) : List Nat := g.getD i []

/-- `SudokuObject.whatis_collist(i, j)`: `[row[j] for row in self._grid]`
(the `i` argument is unused, as in the source). -/
def whatis_collist (g : Grid) (_i j : Nat) : List Nat :=
  g.map (fun row => row.getD j 0)

/-- `SudokuObject.whatis_blklist(i, j)`: the 3×3 block anchored at
`((i // 3) * 3, (j // 3) * 3)`, row-major. -/
def whatis_blklist (g : Grid) (i j : Nat) : List Nat :=
  (List.range 3).flatMap (fun a =>
    (List.range 3).map (fun b => cell g (i / 3 * 3 + a) (j / 3 * 3 + b)))

/-- The `SudokuObject` constructor: an 81-element flat list is regrouped
into nine rows (`self._grid[i // 9].append(n)`). -/
def mkGrid (l : List Nat) : Grid :=
  (List.range 9).map (fun i => (l.drop (9 * i)).take 9)

/-- `SudokuObject.copy()`: flatten the grid cell by cell and rebuild. -/
def sudoku_copy (g : Grid) : Grid :=
  mkGrid ((List.range 9).flatMap (fun i => (List.range 9).map (fun j => cell g i j)))

/-- A well-formed grid: nine rows of nine cells (the only shape the
`SudokuObject` constructor produces from an 81-element input). -/
def WF (g : Grid) : Prop := g.length = 9 ∧ ∀ row ∈ g, row.length = 9

instance : DecidablePred WF := fun g => by
  unfold WF
  infer_instance

lemma map_getD_range9 {α : Type} (l : List α) (d : α) (h : l.length = 9) :
    (List.range 9).map (fun i => l.getD i d) = l := by
  rcases l with _ | ⟨x0, _ | ⟨x1, _ | ⟨x2, _ | ⟨x3, _ | ⟨x4, _ | ⟨x5, _ |
    ⟨x6, _ | ⟨x7, _ | ⟨x8, _ | ⟨x9, l⟩⟩⟩⟩⟩⟩⟩⟩⟩⟩ <;> simp_all
  rfl

lemma flatten_chunk : ∀ (rows : List (List Nat)),
    (∀ r ∈ rows, r.length = 9) → ∀ i, i < rows.length →
      ((rows.flatten.drop (9 * i)).take 9) = rows.getD i [] := by
  intro rows
  induction rows with
  | nil => intro _ i hi; cases hi
  | cons r rest ih =>
    intro hlen i hi
    cases i with
    | zero =>
      simp only [Nat.mul_zero, List.drop_zero, List.flatten_cons, List.getD]
      rw [List.take_left' (hlen r (by simp))]
      rfl
    | succ i =>
      have h9 : 9 * (i + 1) = 9 + 9 * i := by ring
      rw [List.flatten_cons, h9, ← List.drop_drop,
        List.drop_left' (hlen r (by simp))]
      exact ih (fun x hx => hlen x (by simp [hx])) i (by simpa using hi)

/-- Rebuilding a flat list of nine length-9 rows through the
`SudokuObject` constructor recovers exactly those rows. -/
lemma mkGrid_flatten (rows : List (List Nat)) (hl : rows.length = 9)
    (h9 : ∀ r ∈ rows, r.length = 9) : mkGrid rows.flatten = rows := by
  unfold mkGrid
  have : ∀ i ∈ List.range 9,
      ((rows.flatten.drop (9 * i)).take 9) = rows.getD i [] := by
    intro i hi
    exact flatten_chunk rows h9 i (by rw [hl]; exact List.mem_range.mp hi)
  rw [List.map_congr_left this, map_getD_range9 rows [] hl]

lemma sudoku_copy_eq (g : Grid) (h : WF g) : sudoku_copy g = g := by
  unfold sudoku_copy
  have hrow : ∀ i ∈ List.range 9,
      (List.range 9).map (fun j => cell g i j) = g.getD i [] := by
    intro i hi
    have : g.getD i [] ∈ g := by
      rw [List.getD_eq_getElem g [] (by rw [h.1]; exact List.mem_range.mp hi)]
      exact List.getElem_mem _
    exact map_getD_range9 (g.getD i []) 0 (h.2 _ this)
  rw [List.flatMap_def, List.map_congr_left hrow, map_getD_range9 g [] h.1]
  exact mkGrid_flatten g h.1 h.2

/-- The inner cell loop of `SudokuGA._rand_fill_sudoku` on one row:
walk the row; at each `0` cell pick `rd.choice(pos_values)`, write it and
remove it from `pos_values`.  Returns the filled row, the remaining
candidate list and the advanced draw counter. -/
def fill_cells (R : Nat → Nat) : List Nat → List Nat → Nat → List Nat × List Nat × Nat
  | [], pos, t => ([], pos, t)
  | c :: cs, pos, t =>
    if c = 0 then
      let n := pos.getD (R t % pos.length) 0
      let r := fill_cells R cs (pos.erase n) (t + 1)
      (n :: r.1, r.2)
    else
      let r := fill_cells R cs pos t
      (c :: r.1, r.2)

/-- `SudokuGA._rand_fill_sudoku`: for each row in turn, compute
`pos_values = [n for n in range(1, 10) if n not in row]` and fill the
row's zero cells with choices from it. -/
def rand_fill (R : Nat → Nat) : Grid → Nat → Grid × Nat
  | [], t => ([], t)
  | row :: rest, t =>
    let pos := (List.range' 1 9).filter (fun n => decide (n ∉ row))
    let r := fill_cells R row pos t
    let r2 := rand_fill R rest r.2.2
    (r.1 :: r2.1, r2.2)

lemma fill_cells_length (R : Nat → Nat) :
    ∀ (cs pos : List Nat) (t : Nat), (fill_cells R cs pos t).1.length = cs.length := by
  intro cs
  induction cs with
  | nil => intro pos t; rfl
  | cons c cs ih =>
    intro pos t
    unfold fill_cells
    by_cases hc : c = 0 <;> simp [hc, ih]

lemma fill_cells_nonzero (R : Nat → Nat) :
    ∀ (cs pos : List Nat) (t k : Nat), cs.getD k 0 ≠ 0 →
      (fill_cells R cs pos t).1.getD k 0 = cs.getD k 0 := by
  intro cs
  induction cs with
  | nil => intro pos t k h; rfl
  | cons c cs ih =>
    intro pos t k h
    unfold fill_cells
    cases k with
    | zero =>
      have hc : c ≠ 0 := by simpa using h
      simp [hc]
    | succ k =>
      by_cases hc : c = 0 <;> simp only [hc, if_true, if_false, List.getD] at h ⊢ <;>
        exact ih _ _ k (by simpa using h)

/-- The central accounting fact about the row-filling loop: when the
number of zero cells matches the number of available candidates, the
filled row is a permutation of the row's non-zero cells together with all
the candidates. -/
lemma fill_cells_perm (R : Nat → Nat) :
    ∀ (cs pos : List Nat) (t : Nat),
      cs.countP (fun c => decide (c = 0)) = pos.length →
      (fill_cells R cs pos t).1.Perm
        (cs.filter (fun c => !decide (c = 0)) ++ pos) := by
  intro cs
  induction cs with
  | nil =>
    intro pos t h
    simp only [List.countP_nil] at h
    rw [List.length_eq_zero.mp h.symm]
    rfl
  | cons c cs ih =>
    intro pos t h
    by_cases hc : c = 0
    · have hcount : cs.countP (fun c => decide (c = 0)) + 1 = pos.length := by
        rw [List.countP_cons] at h
        simp [hc] at h
        omega
      have hpos : 0 < pos.length := by omega
      have hidx : R t % pos.length < pos.length := Nat.mod_lt _ hpos
      have hmem : pos.getD (R t % pos.length) 0 ∈ pos := by
        rw [List.getD_eq_getElem pos 0 hidx]
        exact List.getElem_mem _
      set n := pos.getD (R t % pos.length) 0 with hn
      have herase : (pos.erase n).length = pos.length - 1 :=
        List.length_erase_of_mem hmem
      have hrec := ih (pos.erase n) (t + 1) (by omega)
      unfold fill_cells
      simp only [hc, if_true]
      refine ((hrec.cons n).trans ?_)
      have h1 : (n :: ((cs.filter (fun c => !decide (c = 0))) ++ pos.erase n)).Perm
          ((cs.filter (fun c => !decide (c = 0))) ++ n :: pos.erase n) :=
        List.perm_middle.symm
      refine h1.trans ?_
      have h2 : (n :: pos.erase n).Perm pos := (List.perm_cons_erase hmem).symm
      have := h2.append_left (cs.filter (fun c => !decide (c = 0)))
      simpa [hc] using this
    · have hcount : cs.countP (fun c => decide (c = 0)) = pos.length := by
        rw [List.countP_cons] at h
        simp [hc] at h
        omega
      have hrec := ih pos t hcount
      unfold fill_cells
      simp only [hc, if_false, if_neg hc]
      have : ((c :: cs).filter (fun c => !decide (c = 0))) =
          c :: (cs.filter (fun c => !decide (c = 0))) := by
        simp [hc]
      rw [this]
      exact hrec.cons c

/-- Filling one row whose non-zero entries are pairwise distinct values in
`1..9` yields a permutation of `1..9`. -/
lemma fill_row_perm (R : Nat → Nat) (row : List Nat) (t : Nat)
    (hlen : row.length = 9)
    (hrange : ∀ x ∈ row, x ≤ 9)
    (hnodup : (row.filter (fun c => !decide (c = 0))).Nodup) :
    (fill_cells R row
      ((List.range' 1 9).filter (fun n => decide (n ∉ row))) t).1.Perm
      (List.range' 1 9) := by
  set pos := (List.range' 1 9).filter (fun n => decide (n ∉ row)) with hpos
  have hsplit := List.filter_append_perm (fun n => decide (n ∈ row)) (List.range' 1 9)
  have hnotnot : (List.range' 1 9).filter (fun n => !decide (n ∈ row)) = pos := by
    rw [hpos]
    apply List.filter_congr
    intro x _
    by_cases hx : x ∈ row <;> simp [hx]
  rw [hnotnot] at hsplit
  have hinfil : (row.filter (fun c => !decide (c = 0))).Perm
      ((List.range' 1 9).filter (fun n => decide (n ∈ row))) := by
    rw [List.perm_ext_iff_of_nodup hnodup
      (List.Nodup.filter _ (List.nodup_range' 1 9))]
    intro a
    constructor
    · intro hmem
      rw [List.mem_filter] at hmem ⊢
      obtain ⟨ha, h0⟩ := hmem
      have h0' : a ≠ 0 := by simpa using h0
      have h9 := hrange a ha
      exact ⟨by rw [List.mem_range'_1]; omega, by simpa using ha⟩
    · intro hmem
      rw [List.mem_filter] at hmem ⊢
      obtain ⟨hr, ha⟩ := hmem
      rw [List.mem_range'_1] at hr
      have ha' : a ∈ row := by simpa using ha
      refine ⟨ha', ?_⟩
      simp only [Bool.not_eq_eq_eq_not, Bool.not_true, decide_eq_false_iff_not]
      omega
  have hcnt : row.countP (fun c => decide (c = 0)) = pos.length := by
    have h1 := List.length_eq_countP_add_countP (fun c => decide (c = 0)) row
    have h2 : row.countP (fun a => decide ¬(decide (a = 0) = true)) =
        row.countP (fun c => !decide (c = 0)) := by
      apply List.countP_congr
      intro x _
      by_cases hx : x = 0 <;> simp [hx]
    have h3 : row.countP (fun c => !decide (c = 0)) =
        (row.filter (fun c => !decide (c = 0))).length :=
      List.countP_eq_length_filter _ _
    have h4 : (row.filter (fun c => !decide (c = 0))).length =
        ((List.range' 1 9).filter (fun n => decide (n ∈ row))).length :=
      hinfil.length_eq
    have h5 : ((List.range' 1 9).filter (fun n => decide (n ∈ row))).length +
        pos.length = 9 := by
      have := hsplit.length_eq
      simpa using this
    rw [hlen] at h1
    omega
  refine (fill_cells_perm R row pos t hcnt).trans ?_
  refine (hinfil.append_right pos).trans hsplit

/-! ### `SudokuGA` configuration constants

The Python constructor stores fractions as IEEE doubles and derives the
integer counts with `int(...)`; the resulting integers (the only values
the algorithm ever uses) are recorded here:
`int(0.10 * 1000) = 100`, `int(0.60 * 1000) = 600`. -/

/-- `self._population_size`. -/
def population_size : Nat := 1000

/-- `self._num_of_children`. -/
def num_of_children : Nat := 10

/-- `int(self._best_select_perc * self._population_size)`. -/
def num_of_best : Nat := 100

/-- `int(self._rand_select_perc * self._population_size)`. -/
def num_of_rand : Nat := 100

/-- `int(self._mutation_perc * self._population_size)`. -/
def num_mutation : Nat := 600

/-- `self._mutation_max_num_cells`. -/
def mutation_max_num_cells : Nat := 5

/-- `self._max_cycles`. -/
def max_cycles : Nat := 100

/-- `self._max_restart`. -/
def max_restart : Nat := 5

/-- `self._fixed`, built by the `SudokuGA` constructor: the coordinates
of the non-zero cells of the initial sudoku, row-major. -/
def fixed_coords (g : Grid) : List (Nat × Nat) :=
  (List.range 9).flatMap (fun i =>
    ((List.range 9).filter (fun j => decide (cell g i j ≠ 0))).map (fun j => (i, j)))

/-- `SudokuGA._fitness_filled_sudoku`: over every row, column and block,
count the symbols of `1..9` absent from that group.  (`range(0, 9, 3)` is
`List.range' 0 3 3 = [0, 3, 6]`.) -/
def fitness_filled_sudoku (g : Grid) : Nat :=
  ((List.range 9).map (fun i =>
    (List.range' 1 9).countP (fun n => decide (n ∉ whatis_rowlist g i 0)))).sum +
  ((List.range 9).map (fun j =>
    (List.range' 1 9).countP (fun n => decide (n ∉ whatis_collist g 0 j)))).sum +
  ((List.range' 0 3 3).map (fun i =>
    ((List.range' 0 3 3).map (fun j =>
      (List.range' 1 9).countP (fun n => decide (n ∉ whatis_blklist g i j)))).sum)).sum

/-- The attempts loop of `SudokuGA._mutate`: each attempt draws a row `i`
and two columns `j1`, `j2` (`rd.randint(0, 8)` three times) and, when
neither `(i, j1)` nor `(i, j2)` is a fixed coordinate, swaps the two cell
values. -/
def mutate_aux (fx : List (Nat × Nat)) (R : Nat → Nat) :
    Nat → Grid → Nat → Grid × Nat
  | 0, g, t => (g, t)
  | k + 1, g, t =>
    let i := R t % 9
    let j1 := R (t + 1) % 9
    let j2 := R (t + 2) % 9
    let g2 :=
      if (i, j1) ∉ fx ∧ (i, j2) ∉ fx then
        let n := cell g i j1
        let m := cell g i j2
        g.set i (((g.getD i []).set j1 m).set j2 n)
      else g
    mutate_aux fx R k g2 (t + 3)

/-- `SudokuGA._mutate`: `mutation_max_num_cells` swap attempts. -/
def ga_mutate (fx : List (Nat × Nat)) (R : Nat → Nat) (g : Grid) (t : Nat) :
    Grid × Nat :=
  mutate_aux fx R mutation_max_num_cells g t

/-- One child of `SudokuGA._generate_children`: for each of the nine rows
flip a coin (`rd.randint(1, 2)`) and append the corresponding parent's
row to the flat `child_list`. -/
def make_child (R : Nat → Nat) (g1 g2 : Grid) (t : Nat) : List Nat × Nat :=
  (List.range 9).foldl (fun acc i =>
    let n := R acc.2 % 2 + 1
    let acc1 := if n = 1 then acc.1 ++ whatis_rowlist g1 i 0 else acc.1
    let acc2 := if n = 2 then acc1 ++ whatis_rowlist g2 i 0 else acc1
    (acc2, acc.2 + 1)) ([], t)

def gen_children_aux (R : Nat → Nat) (g1 g2 : Grid) :
    Nat → Nat → List Grid × Nat
  | 0, t => ([], t)
  | k + 1, t =>
    let c := make_child R g1 g2 t
    let rest := gen_children_aux R g1 g2 k c.2
    (mkGrid c.1 :: rest.1, rest.2)

/-- `SudokuGA._generate_children`: `num_of_children` children, each a
`SudokuObject` built from its flat `child_list`. -/
def generate_children (R : Nat → Nat) (g1 g2 : Grid) (t : Nat) :
    List Grid × Nat :=
  gen_children_aux R g1 g2 num_of_children t

/-- `rd.sample(l, k)`: draw `k` distinct elements, one index draw per
element from the not-yet-chosen remainder.  (Python raises when
`k > len(l)`; in the modelled program `k ≤ len(l)` always holds and the
early-`[]` branch is unreachable.) -/
def rsample {α : Type} [Inhabited α] (R : Nat → Nat) :
    Nat → List α → Nat → List α × Nat
  | 0, _, t => ([], t)
  | k + 1, l, t =>
    if l.isEmpty then ([], t)
    else
      let idx := R t % l.length
      let r := rsample R k (l.eraseIdx idx) (t + 1)
      (l.getD idx default :: r.1, r.2)

/-- `rd.shuffle(l)`: modelled as sampling all `len(l)` elements. -/
def rshuffle {α : Type} [Inhabited α] (R : Nat → Nat) (l : List α) (t : Nat) :
    List α × Nat :=
  rsample R l.length l t

/-- The pairing loop `for i in range(0, len(parents_list), 2)` of
`SudokuGA.run`, step (d): consecutive pairs each produce
`generate_children`.  (The parent list always has even length.) -/
def breed_pairs (R : Nat → Nat) : List Grid → Nat → List Grid × Nat
  | p1 :: p2 :: rest, t =>
    let c := generate_children R p1 p2 t
    let r := breed_pairs R rest c.2
    (c.1 ++ r.1, r.2)
  | _, t => ([], t)

/-- Step (e) of `SudokuGA.run`: `rd.sample(children_list, num_mutation)`
and mutate each sampled child in place.  Sampling objects without
replacement from a list of distinct fresh objects is sampling distinct
positions, so the pass is modelled by sampling positions and updating
them. -/
def mutate_pass (fx : List (Nat × Nat)) (R : Nat → Nat)
    (children : List Grid) (t : Nat) : List Grid × Nat :=
  let s := rsample R num_mutation (List.range children.length) t
  s.1.foldl (fun acc i =>
    let m := ga_mutate fx R (acc.1.getD i []) acc.2
    (acc.1.set i m.1, m.2)) (children, s.2)

/-- One generation of `SudokuGA.run` (steps (a), (c), (d), (e), (f)):
sort by fitness, select elite plus random parents, shuffle, breed pairs,
mutate a sample of the children; the children become the new population.
(The sort repeats the in-place `population.sort` of step (a); `mergeSort`
is deterministic, so the sorted list equals the one the fitness-0 check
of step (b) inspects.) -/
def next_generation (fx : List (Nat × Nat)) (R : Nat → Nat)
    (pop : List Grid) (t : Nat) : List Grid × Nat :=
  let sorted := pop.mergeSort
    (fun a b => decide (fitness_filled_sudoku a ≤ fitness_filled_sudoku b))
  let s := rsample R num_of_rand (sorted.drop num_of_best) t
  let parents := sorted.take num_of_best ++ s.1
  let sh := rshuffle R parents s.2
  let c := breed_pairs R sh.1 sh.2
  mutate_pass fx R c.1 c.2

def init_pop_aux (R : Nat → Nat) (b0 : Grid) : Nat → Nat → List Grid × Nat
  | 0, t => ([], t)
  | k + 1, t =>
    let r := rand_fill R (sudoku_copy b0) t
    let rest := init_pop_aux R b0 k r.2
    (r.1 :: rest.1, rest.2)

/-- The population-initialisation loop of `SudokuGA.run`: copy the initial
sudoku and `_rand_fill_sudoku` it, `population_size` times. -/
def init_population (R : Nat → Nat) (b0 : Grid) (t : Nat) : List Grid × Nat :=
  init_pop_aux R b0 population_size t

/-- The generation loop (`for _ in range(self._max_cycles)`): sort, return
the best individual when its fitness is zero, otherwise breed the next
generation. -/
def ga_run_cycles (fx : List (Nat × Nat)) (R : Nat → Nat) :
    Nat → List Grid → Nat → Option Grid × Nat
  | 0, _, t => (none, t)
  | k + 1, pop, t =>
    let sorted := pop.mergeSort
      (fun a b => decide (fitness_filled_sudoku a ≤ fitness_filled_sudoku b))
    if fitness_filled_sudoku (sorted.getD 0 []) = 0 then (some (sorted.getD 0 []), t)
    else
      let p := next_generation fx R pop t
      ga_run_cycles fx R k p.1 p.2

/-- The restart loop (`for _ in range(self._max_restart)`): initialise a
population, run the generation loop, return its solution when it found
one (`res.1.isSome`), otherwise move to the next restart. -/
def ga_run_restarts (fx : List (Nat × Nat)) (R : Nat → Nat) (b0 : Grid) :
    Nat → Nat → Option Grid × Nat
  | 0, t => (none, t)
  | k + 1, t =>
    let ip := init_population R b0 t
    let res := ga_run_cycles fx R max_cycles ip.1 ip.2
    if res.1.isSome then res
    else ga_run_restarts fx R b0 k res.2

/-- `SudokuGA.run()`: the first component is `some solution`, or `none`
for the final `raise Exception("Couldn't find a solution")`; the second
component is the final draw counter of the randomness oracle. -/
def sudoku_ga_run (R : Nat → Nat) (b0 : Grid) : Option Grid × Nat :=
  ga_run_restarts (fixed_coords b0) R b0 max_restart 0

/-- The individuals the genetic algorithm can ever create from the input
board `b0`: those produced by `_rand_fill_sudoku` on a copy of `b0`
(population initialisation), by `_generate_children` from two such
individuals (crossover), and by `_mutate` (with the constructor's fixed
list) of such an individual.  Sorting, slicing, `rd.sample` and
`rd.shuffle` only select existing individuals, so every member of every
generation of `SudokuGA.run` belongs to this closure. -/
inductive InPop (b0 : Grid) : Grid → Prop
  | init (R : Nat → Nat) (t : Nat) : InPop b0 (rand_fill R (sudoku_copy b0) t).1
  | child {g1 g2 : Grid} (R : Nat → Nat) (t : Nat) {c : Grid} :
      InPop b0 g1 → InPop b0 g2 →
      c ∈ (generate_children R g1 g2 t).1 → InPop b0 c
  | mutStep {g : Grid} (R : Nat → Nat) (t : Nat) :
      InPop b0 g → InPop b0 (ga_mutate (fixed_coords b0) R g t).1

/-- The populations `SudokuGA.run` can ever hold for input `b0`: a freshly
initialised population, or the output of a full generation step. -/
inductive PopState (b0 : Grid) : List Grid → Prop
  | init (R : Nat → Nat) (t : Nat) : PopState b0 (init_population R b0 t).1
  | step {pop : List Grid} (R : Nat → Nat) (t : Nat) :
      PopState b0 pop → PopState b0 (next_generation (fixed_coords b0) R pop t).1

/-! ### Structure of crossover children -/

/-- Specification companion of `make_child`'s fold: the row each coin flip
selects, in order. -/
def pickRows (R : Nat → Nat) (g1 g2 : Grid) : List Nat → Nat → List (List Nat)
  | [], _ => []
  | i :: is, t =>
    (if R t % 2 + 1 = 1 then whatis_rowlist g1 i 0 else whatis_rowlist g2 i 0) ::
      pickRows R g1 g2 is (t + 1)

lemma make_child_foldl (R : Nat → Nat) (g1 g2 : Grid) :
    ∀ (L : List Nat) (acc : List Nat) (t : Nat),
      (L.foldl (fun acc i =>
        let n := R acc.2 % 2 + 1
        let acc1 := if n = 1 then acc.1 ++ whatis_rowlist g1 i 0 else acc.1
        let acc2 := if n = 2 then acc1 ++ whatis_rowlist g2 i 0 else acc1
        (acc2, acc.2 + 1)) (acc, t)) =
      (acc ++ (pickRows R g1 g2 L t).flatten, t + L.length) := by
  intro L
  induction L with
  | nil => intro acc t; simp [pickRows]
  | cons i is ih =>
    intro acc t
    rw [List.foldl_cons]
    rcases Nat.mod_two_eq_zero_or_one (R t) with h | h
    · have h1 : R t % 2 + 1 = 1 := by omega
      simp only [h1, if_pos rfl, if_neg (by omega : ¬(1 : Nat) = 2)]
      rw [ih]
      simp [pickRows, h1, List.append_assoc]
      omega
    · have h2 : R t % 2 + 1 = 2 := by omega
      simp only [h2, if_neg (by omega : ¬(2 : Nat) = 1), if_pos rfl]
      rw [ih]
      simp [pickRows, h2, List.append_assoc]
      omega

lemma make_child_eq (R : Nat → Nat) (g1 g2 : Grid) (t : Nat) :
    make_child R g1 g2 t =
      ((pickRows R g1 g2 (List.range 9) t).flatten, t + 9) := by
  unfold make_child
  rw [make_child_foldl R g1 g2 (List.range 9) [] t]
  simp

lemma pickRows_length (R : Nat → Nat) (g1 g2 : Grid) :
    ∀ (L : List Nat) (t : Nat), (pickRows R g1 g2 L t).length = L.length := by
  intro L
  induction L with
  | nil => intro t; rfl
  | cons i is ih => intro t; simp [pickRows, ih]

lemma pickRows_getD (R : Nat → Nat) (g1 g2 : Grid) :
    ∀ (L : List Nat) (t k : Nat), k < L.length →
      (pickRows R g1 g2 L t).getD k [] =
        (if R (t + k) % 2 + 1 = 1 then whatis_rowlist g1 (L.getD k 0) 0
         else whatis_rowlist g2 (L.getD k 0) 0) := by
  intro L
  induction L with
  | nil => intro t k hk; cases hk
  | cons i is ih =>
    intro t k hk
    cases k with
    | zero => simp [pickRows]
    | succ k =>
      have : t + (k + 1) = (t + 1) + k := by omega
      rw [this]
      exact ih (t + 1) k (by simpa using hk)

/-- A row of a well-formed grid, addressed by `getD`. -/
lemma wf_row_length {g : Grid} (h : WF g) {i : Nat} (hi : i < 9) :
    (g.getD i []).length = 9 := by
  have hmem : g.getD i [] ∈ g := by
    rw [List.getD_eq_getElem g [] (by rw [h.1]; exact hi)]
    exact List.getElem_mem _
  exact h.2 _ hmem

/-- Every child that `_generate_children` builds from two well-formed
parents is well-formed and takes each of its rows from one of the two
parents. -/
lemma child_rows {R : Nat → Nat} {g1 g2 : Grid} (h1 : WF g1) (h2 : WF g2) :
    ∀ (k t : Nat) (c : Grid), c ∈ (gen_children_aux R g1 g2 k t).1 →
      WF c ∧ ∀ i, i < 9 → (c.getD i [] = g1.getD i [] ∨ c.getD i [] = g2.getD i []) := by
  intro k
  induction k with
  | zero => intro t c hc; cases hc
  | succ k ih =>
    intro t c hc
    unfold gen_children_aux at hc
    simp only [List.mem_cons] at hc
    rcases hc with hc | hc
    · subst hc
      have hpl : (pickRows R g1 g2 (List.range 9) t).length = 9 := by
        rw [pickRows_length]; simp
      have hrows : ∀ r ∈ pickRows R g1 g2 (List.range 9) t, r.length = 9 := by
        intro r hr
        obtain ⟨k0, hk0, rfl⟩ := List.getElem_of_mem hr
        rw [← List.getD_eq_getElem _ [] hk0]
        rw [pickRows_getD R g1 g2 (List.range 9) t k0 (by simpa using hk0)]
        have hk9 : k0 < 9 := by rw [hpl] at hk0; exact hk0
        have hrg : (List.range 9).getD k0 0 = k0 := by
          rw [List.getD_eq_getElem _ 0 (by simpa using hk9)]
          simp
        rw [hrg]
        by_cases hcoin : R (t + k0) % 2 + 1 = 1
        · rw [if_pos hcoin]
          exact wf_row_length h1 hk9
        · rw [if_neg hcoin]
          exact wf_row_length h2 hk9
      have hmk : mkGrid (make_child R g1 g2 t).1 =
          pickRows R g1 g2 (List.range 9) t := by
        rw [make_child_eq]
        exact mkGrid_flatten _ hpl hrows
      rw [hmk]
      refine ⟨⟨hpl, hrows⟩, ?_⟩
      intro i hi
      rw [pickRows_getD R g1 g2 (List.range 9) t i (by simpa using hi)]
      have hrg : (List.range 9).getD i 0 = i := by
        rw [List.getD_eq_getElem _ 0 (by simpa using hi)]
        simp
      rw [hrg]
      by_cases hcoin : R (t + i) % 2 + 1 = 1
      · rw [if_pos hcoin]
        exact Or.inl rfl
      · rw [if_neg hcoin]
        exact Or.inr rfl
    · exact ih _ c hc

/-! ### `_rand_fill_sudoku` at grid level -/

lemma rand_fill_length (R : Nat → Nat) :
    ∀ (g : Grid) (t : Nat), (rand_fill R g t).1.length = g.length := by
  intro g
  induction g with
  | nil => intro t; rfl
  | cons row rest ih => intro t; simp [rand_fill, ih]

lemma rand_fill_wf (R : Nat → Nat) (g : Grid) (t : Nat) (h : WF g) :
    WF (rand_fill R g t).1 := by
  refine ⟨by rw [rand_fill_length]; exact h.1, ?_⟩
  obtain ⟨-, hrows⟩ := h
  induction g generalizing t with
  | nil => intro r hr; cases hr
  | cons row rest ih =>
    intro r hr
    simp only [rand_fill, List.mem_cons] at hr
    rcases hr with hr | hr
    · subst hr
      rw [fill_cells_length]
      exact hrows row (by simp)
    · exact ih _ (fun x hx => hrows x (List.mem_cons_of_mem _ hx)) r hr

/-- Filling never disturbs a non-zero cell. -/
lemma rand_fill_nonzero (R : Nat → Nat) :
    ∀ (g : Grid) (t i j : Nat), cell g i j ≠ 0 →
      cell (rand_fill R g t).1 i j = cell g i j := by
  intro g
  induction g with
  | nil => intro t i j h; exact absurd rfl h
  | cons row rest ih =>
    intro t i j h
    cases i with
    | zero =>
      show (fill_cells R row _ t).1.getD j 0 = row.getD j 0
      exact fill_cells_nonzero R row _ t j h
    | succ i =>
      show ((rand_fill R rest _).1.getD i []).getD j 0 = _
      exact ih _ i j h

/-- Row-completeness of filled grids: when every row of the input has
pairwise-distinct non-zero values, all of them at most 9, every row of the
filled grid is a permutation of `1..9`. -/
lemma rand_fill_rows_perm (R : Nat → Nat) :
    ∀ (g : Grid) (t : Nat),
      (∀ row ∈ g, row.length = 9 ∧ (∀ x ∈ row, x ≤ 9) ∧
        (row.filter (fun c => !decide (c = 0))).Nodup) →
      ∀ r ∈ (rand_fill R g t).1, r.Perm (List.range' 1 9) := by
  intro g
  induction g with
  | nil => intro t _ r hr; cases hr
  | cons row rest ih =>
    intro t hrows r hr
    simp only [rand_fill, List.mem_cons] at hr
    rcases hr with hr | hr
    · subst hr
      obtain ⟨hlen, hrange, hnodup⟩ := hrows row (by simp)
      exact fill_row_perm R row t hlen hrange hnodup
    · exact ih _ (fun x hx => hrows x (by simp [hx])) r hr

/-! ### `_mutate` -/

/-- Swapping two positions of a list is a permutation. -/
lemma set_set_swap_perm (l : List Nat) (j1 j2 : Nat)
    (h1 : j1 < l.length) (h2 : j2 < l.length) :
    ((l.set j1 (l.getD j2 0)).set j2 (l.getD j1 0)).Perm l := by
  rw [List.perm_iff_count]
  intro x
  have hlen1 : j2 < (l.set j1 (l.getD j2 0)).length := by
    rw [List.length_set]; exact h2
  rw [List.count_set _ _ _ _ hlen1, List.count_set _ _ _ _ h1]
  have hAj2 : (l.set j1 (l.getD j2 0))[j2] = l[j2] := by
    rw [List.getElem_set]
    by_cases heq : j1 = j2
    · rw [if_pos heq, List.getD_eq_getElem l 0 h2]
    · rw [if_neg heq]
  rw [hAj2, List.getD_eq_getElem l 0 h1, List.getD_eq_getElem l 0 h2]
  have hA : (if (l[j1] == x) = true then (1 : Nat) else 0) ≤ l.count x := by
    by_cases hx1 : l[j1] = x
    · rw [if_pos (by rw [hx1]; exact beq_self_eq_true x)]
      have : x ∈ l := by rw [← hx1]; exact List.getElem_mem h1
      have := List.count_pos_iff.mpr this
      omega
    · rw [if_neg (by simp [hx1])]
      exact Nat.zero_le _
  omega

/-- Each mutation attempt permutes every row of a well-formed grid in
place (the touched row by an in-row swap, the others not at all), and
preserves well-formedness. -/
lemma mutate_aux_rows_perm (fx : List (Nat × Nat)) (R : Nat → Nat) :
    ∀ (k : Nat) (g : Grid) (t : Nat), WF g →
      WF (mutate_aux fx R k g t).1 ∧
      ∀ i, ((mutate_aux fx R k g t).1.getD i []).Perm (g.getD i []) := by
  intro k
  induction k with
  | zero => intro g t hg; exact ⟨hg, fun i => List.Perm.refl _⟩
  | succ k ih =>
    intro g t hg
    unfold mutate_aux
    set i0 := R t % 9 with hi0
    set j1 := R (t + 1) % 9 with hj1
    set j2 := R (t + 2) % 9 with hj2
    by_cases hcond : (i0, j1) ∉ fx ∧ (i0, j2) ∉ fx
    · simp only [if_pos hcond]
      have hrow : (g.getD i0 []).length = 9 := wf_row_length hg (Nat.mod_lt _ (by omega))
      have hswap : (((g.getD i0 []).set j1 (cell g i0 j2)).set j2 (cell g i0 j1)).Perm
          (g.getD i0 []) := by
        have := set_set_swap_perm (g.getD i0 []) j1 j2
          (by rw [hrow]; exact Nat.mod_lt _ (by omega))
          (by rw [hrow]; exact Nat.mod_lt _ (by omega))
        exact this
      set row2 := ((g.getD i0 []).set j1 (cell g i0 j2)).set j2 (cell g i0 j1) with hrow2
      have hwf2 : WF (g.set i0 row2) := by
        refine ⟨by rw [List.length_set]; exact hg.1, ?_⟩
        intro r hr
        rcases List.mem_or_eq_of_mem_set hr with hr | hr
        · exact hg.2 r hr
        · subst hr
          rw [hrow2]
          simp only [List.length_set]
          exact hrow
      obtain ⟨hwf3, hperm3⟩ := ih (g.set i0 row2) (t + 3) hwf2
      refine ⟨hwf3, fun i => (hperm3 i).trans ?_⟩
      by_cases hii : i = i0
      · have hgetset : (g.set i0 row2).getD i [] = row2 := by
          rw [hii]
          rw [List.getD_eq_getElem _ [] (by
            rw [List.length_set, hg.1]
            exact Nat.mod_lt _ (by omega))]
          exact List.getElem_set_self _
        rw [hgetset, hii]
        exact hswap
      · have hgetset : (g.set i0 row2).getD i [] = g.getD i [] := by
          rw [List.getD_eq_getElem?_getD, List.getD_eq_getElem?_getD,
            List.getElem?_set_ne (by omega)]
        rw [hgetset]
    · simp only [if_neg hcond]
      exact ih g (t + 3) hg

/-- A mutation attempt never changes a cell whose coordinates are in the
fixed list. -/
lemma mutate_aux_fixed (fx : List (Nat × Nat)) (R : Nat → Nat) :
    ∀ (k : Nat) (g : Grid) (t : Nat) (a b : Nat), (a, b) ∈ fx →
      cell (mutate_aux fx R k g t).1 a b = cell g a b := by
  intro k
  induction k with
  | zero => intro g t a b _; rfl
  | succ k ih =>
    intro g t a b hab
    unfold mutate_aux
    set i0 := R t % 9 with hi0
    set j1 := R (t + 1) % 9 with hj1
    set j2 := R (t + 2) % 9 with hj2
    by_cases hcond : (i0, j1) ∉ fx ∧ (i0, j2) ∉ fx
    · simp only [if_pos hcond]
      set row2 := ((g.getD i0 []).set j1 (cell g i0 j2)).set j2 (cell g i0 j1)
        with hrow2
      rw [ih (g.set i0 row2) (t + 3) a b hab]
      by_cases hia : a = i0
      · rw [hia]
        have hbj1 : b ≠ j1 := fun hb => hcond.1 (by rw [← hia, ← hb]; exact hab)
        have hbj2 : b ≠ j2 := fun hb => hcond.2 (by rw [← hia, ← hb]; exact hab)
        show ((g.set i0 row2).getD i0 []).getD b 0 = (g.getD i0 []).getD b 0
        by_cases hlt : i0 < g.length
        · have hgs : (g.set i0 row2).getD i0 [] = row2 := by
            rw [List.getD_eq_getElem _ [] (by rw [List.length_set]; exact hlt)]
            exact List.getElem_set_self _
          rw [hgs, hrow2]
          rw [List.getD_eq_getElem?_getD, List.getElem?_set_ne (by omega),
            List.getElem?_set_ne (by omega), ← List.getD_eq_getElem?_getD]
        · rw [List.set_eq_of_length_le (by omega)]
      · show ((g.set i0 row2).getD a []).getD b 0 = (g.getD a []).getD b 0
        rw [List.getD_eq_getElem?_getD g, List.getD_eq_getElem?_getD (g.set i0 row2),
          List.getElem?_set_ne (by omega)]
    · simp only [if_neg hcond]
      exact ih g (t + 3) a b hab

/-! ### Fitness -/

lemma countP_notmem_zero (l group : List Nat) :
    (l.countP (fun n => decide (n ∉ group)) = 0) ↔ ∀ n ∈ l, n ∈ group := by
  rw [List.countP_eq_zero]
  constructor
  · intro h n hn
    have := h n hn
    simpa using this
  · intro h n hn
    simpa using h n hn

lemma sum_map_eq_zero {α : Type} (l : List α) (f : α → Nat) :
    ((l.map f).sum = 0) ↔ ∀ x ∈ l, f x = 0 := by
  rw [List.sum_eq_zero_iff]
  simp

/-- `fitness == 0` means: every symbol `1..9` occurs in every row, column
and block (the three accumulation loops each contribute zero). -/
lemma fitness_zero_iff_mem (g : Grid) :
    fitness_filled_sudoku g = 0 ↔
      ((∀ i ∈ List.range 9, ∀ n ∈ List.range' 1 9, n ∈ whatis_rowlist g i 0) ∧
       (∀ j ∈ List.range 9, ∀ n ∈ List.range' 1 9, n ∈ whatis_collist g 0 j) ∧
       (∀ i ∈ List.range' 0 3 3, ∀ j ∈ List.range' 0 3 3,
         ∀ n ∈ List.range' 1 9, n ∈ whatis_blklist g i j)) := by
  unfold fitness_filled_sudoku
  rw [Nat.add_eq_zero, Nat.add_eq_zero]
  rw [sum_map_eq_zero, sum_map_eq_zero, sum_map_eq_zero]
  constructor
  · rintro ⟨⟨hr, hc⟩, hb⟩
    refine ⟨?_, ?_, ?_⟩
    · intro i hi
      exact (countP_notmem_zero _ _).mp (hr i hi)
    · intro j hj
      exact (countP_notmem_zero _ _).mp (hc j hj)
    · intro i hi j hj
      have := (sum_map_eq_zero _ _).mp (hb i hi) j hj
      exact (countP_notmem_zero _ _).mp this
  · rintro ⟨hr, hc, hb⟩
    refine ⟨⟨?_, ?_⟩, ?_⟩
    · intro i hi
      exact (countP_notmem_zero _ _).mpr (hr i hi)
    · intro j hj
      exact (countP_notmem_zero _ _).mpr (hc j hj)
    · intro i hi
      rw [sum_map_eq_zero]
      intro j hj
      exact (countP_notmem_zero _ _).mpr (hb i hi j hj)

/-- Pigeonhole for a 9-cell group: if all nine symbols appear, each
appears exactly once. -/
lemma count_one_of_all_mem (grp : List Nat) (hlen : grp.length = 9)
    (hall : ∀ n ∈ List.range' 1 9, n ∈ grp) :
    ∀ n ∈ List.range' 1 9, grp.count n = 1 := by
  have hsp : (List.range' 1 9).Subperm grp :=
    (List.nodup_range' 1 9).subperm (fun n hn => hall n hn)
  have hperm : (List.range' 1 9).Perm grp :=
    hsp.perm_of_length_le (by rw [hlen]; simp)
  intro n hn
  rw [← hperm.count_eq]
  exact List.count_eq_one_of_mem (List.nodup_range' 1 9) hn

lemma length_whatis_collist (g : Grid) (hwf : WF g) (j : Nat) :
    (whatis_collist g 0 j).length = 9 := by
  unfold whatis_collist
  rw [List.length_map]
  exact hwf.1

lemma length_whatis_blklist (g : Grid) (i j : Nat) :
    (whatis_blklist g i j).length = 9 := by
  rfl

/-- The block list only depends on `(i, j)` through the block anchor. -/
lemma whatis_blklist_anchor (g : Grid) (i j : Nat) :
    whatis_blklist g (i / 3 * 3) (j / 3 * 3) = whatis_blklist g i j := by
  unfold whatis_blklist
  rw [Nat.mul_div_cancel _ (by omega : (0:Nat) < 3),
    Nat.mul_div_cancel _ (by omega : (0:Nat) < 3)]

/-- Two distinct positions holding the same value force a count of at
least two. -/
lemma two_le_count_of_getD (l : List Nat) :
    ∀ (j1 j2 v : Nat), j1 < j2 → j2 < l.length →
      l.getD j1 0 = v → l.getD j2 0 = v → 2 ≤ l.count v := by
  induction l with
  | nil => intro j1 j2 v h12 h2 _ _; cases h2
  | cons c tl ih =>
    intro j1 j2 v h12 h2 hj1 hj2
    cases j1 with
    | zero =>
      cases j2 with
      | zero => omega
      | succ k =>
        have hcv : c = v := by simpa using hj1
        have hk : k < tl.length := by simpa using h2
        have hkv : tl.getD k 0 = v := by simpa using hj2
        have hmem : v ∈ tl := by
          rw [List.getD_eq_getElem tl 0 hk] at hkv
          rw [← hkv]
          exact List.getElem_mem hk
        have hpos : 0 < tl.count v := List.count_pos_iff.mpr hmem
        rw [List.count_cons]
        simp only [hcv, beq_self_eq_true, if_true]
        omega
    | succ m =>
      cases j2 with
      | zero => omega
      | succ k =>
        have := ih m k v (by omega) (by simpa using h2)
          (by simpa using hj1) (by simpa using hj2)
        rw [List.count_cons]
        omega

lemma mem_fixed_coords {g : Grid} {a b : Nat} :
    (a, b) ∈ fixed_coords g ↔ a < 9 ∧ b < 9 ∧ cell g a b ≠ 0 := by
  simp only [fixed_coords, List.mem_flatMap, List.mem_map, List.mem_filter,
    List.mem_range, decide_eq_true_eq, Prod.mk.injEq]
  constructor
  · rintro ⟨i, hi, j, ⟨⟨hj, hne⟩, rfl, rfl⟩⟩
    exact ⟨hi, hj, hne⟩
  · rintro ⟨ha, hb, hne⟩
    exact ⟨a, ha, b, ⟨⟨hb, hne⟩, rfl, rfl⟩⟩

/-- The master preservation fact: every individual the algorithm can
create from a well-formed input board is well-formed and agrees with the
input on its fixed (non-zero) cells. -/
lemma inpop_wf_fixed {b0 : Grid} (h0 : WF b0) :
    ∀ {g : Grid}, InPop b0 g →
      WF g ∧ ∀ i j, i < 9 → j < 9 → cell b0 i j ≠ 0 → cell g i j = cell b0 i j := by
  intro g hg
  induction hg with
  | init R t =>
    rw [sudoku_copy_eq b0 h0]
    refine ⟨rand_fill_wf R b0 t h0, ?_⟩
    intro i j hi hj hne
    exact rand_fill_nonzero R b0 t i j hne
  | child R t hg1 hg2 hc ih1 ih2 =>
    obtain ⟨hwf1, hfix1⟩ := ih1
    obtain ⟨hwf2, hfix2⟩ := ih2
    obtain ⟨hwfc, hrows⟩ := child_rows hwf1 hwf2 _ _ _ hc
    refine ⟨hwfc, ?_⟩
    intro i j hi hj hne
    rcases hrows i hi with h | h
    · show (List.getD _ i []).getD j 0 = _
      rw [h]
      exact hfix1 i j hi hj hne
    · show (List.getD _ i []).getD j 0 = _
      rw [h]
      exact hfix2 i j hi hj hne
  | mutStep R t hg ih =>
    obtain ⟨hwf, hfix⟩ := ih
    refine ⟨(mutate_aux_rows_perm _ R mutation_max_num_cells _ t hwf).1, ?_⟩
    intro i j hi hj hne
    have hmem : (i, j) ∈ fixed_coords b0 := mem_fixed_coords.mpr ⟨hi, hj, hne⟩
    show cell (mutate_aux (fixed_coords b0) R mutation_max_num_cells _ t).1 i j = _
    rw [mutate_aux_fixed (fixed_coords b0) R mutation_max_num_cells _ t i j hmem]
    exact hfix i j hi hj hne

/-- C6: Fixed-cell invariance.  For a well-formed input board, every
individual the genetic algorithm ever creates (initial fill, crossover
child, or mutated individual, closed under repetition — hence every
member of every generation) carries the input's value at every coordinate
of the constructor's fixed list. -/
theorem fixed_cell_invariance (b0 g : Grid) (h0 : WF b0) (hg : InPop b0 g) :
    ∀ c ∈ fixed_coords b0, cell g c.1 c.2 = cell b0 c.1 c.2 := by
  intro c hc
  rcases c with ⟨a, b⟩
  rw [mem_fixed_coords] at hc
  exact (inpop_wf_fixed h0 hg).2 a b hc.1 hc.2.1 hc.2.2

theorem fixed_cell_invariance_witness :
    cell (rand_fill (fun _ => 0)
        (sudoku_copy (mkGrid (5 :: List.replicate 80 0))) 0).1 0 0 =
      cell (mkGrid (5 :: List.replicate 80 0)) 0 0 :=
  fixed_cell_invariance (mkGrid (5 :: List.replicate 80 0)) _
    (by decide) (InPop.init (fun _ => 0) 0) (0, 0) (by decide)

lemma mem_range'_anchor : ∀ a < 3, 3 * a ∈ List.range' 0 3 3 := by
  decide

/-- C7: `_fitness_filled_sudoku` is a non-negative integer, and it is zero
exactly when every row, every column and every 3×3 block contains each
symbol `1..9` exactly once. -/
theorem fitness_nonneg_zero_iff (g : Grid) (hwf : WF g) :
    0 ≤ fitness_filled_sudoku g ∧
    (fitness_filled_sudoku g = 0 ↔
      ((∀ i, i < 9 → ∀ n, 1 ≤ n → n ≤ 9 → (whatis_rowlist g i 0).count n = 1) ∧
       (∀ j, j < 9 → ∀ n, 1 ≤ n → n ≤ 9 → (whatis_collist g 0 j).count n = 1) ∧
       (∀ a b, a < 3 → b < 3 → ∀ n, 1 ≤ n → n ≤ 9 →
         (whatis_blklist g (3 * a) (3 * b)).count n = 1))) := by
  refine ⟨Nat.zero_le _, ?_⟩
  rw [fitness_zero_iff_mem]
  constructor
  · rintro ⟨hr, hc, hb⟩
    refine ⟨?_, ?_, ?_⟩
    · intro i hi n h1 h9
      exact count_one_of_all_mem _ (wf_row_length hwf hi)
        (hr i (List.mem_range.mpr hi)) n (List.mem_range'_1.mpr (by omega))
    · intro j hj n h1 h9
      exact count_one_of_all_mem _ (length_whatis_collist g hwf j)
        (hc j (List.mem_range.mpr hj)) n (List.mem_range'_1.mpr (by omega))
    · intro a b ha hb3 n h1 h9
      exact count_one_of_all_mem _ (length_whatis_blklist g _ _)
        (hb (3 * a) (mem_range'_anchor a ha) (3 * b) (mem_range'_anchor b hb3))
        n (List.mem_range'_1.mpr (by omega))
  · rintro ⟨hr, hc, hb⟩
    refine ⟨?_, ?_, ?_⟩
    · intro i hi n hn
      rw [List.mem_range] at hi
      rw [List.mem_range'_1] at hn
      exact List.count_pos_iff.mp
        (by rw [hr i hi n (by omega) (by omega)]; omega)
    · intro j hj n hn
      rw [List.mem_range] at hj
      rw [List.mem_range'_1] at hn
      exact List.count_pos_iff.mp
        (by rw [hc j hj n (by omega) (by omega)]; omega)
    · intro i hi j hj n hn
      rw [List.mem_range'] at hi hj
      obtain ⟨a, ha, rfl⟩ := hi
      obtain ⟨b, hb3, rfl⟩ := hj
      rw [List.mem_range'_1] at hn
      have := hb a b ha hb3 n (by omega) (by omega)
      refine List.count_pos_iff.mp ?_
      have hzero : (0 : Nat) + 3 * a = 3 * a := by omega
      have hzero2 : (0 : Nat) + 3 * b = 3 * b := by omega
      rw [hzero, hzero2, this]
      omega

theorem fitness_nonneg_zero_iff_witness :
    0 ≤ fitness_filled_sudoku (mkGrid
      [1, 2, 3, 4, 5, 6, 7, 8, 9,
       4, 5, 6, 7, 8, 9, 1, 2, 3,
       7, 8, 9, 1, 2, 3, 4, 5, 6,
       2, 3, 1, 5, 6, 4, 8, 9, 7,
       5, 6, 4, 8, 9, 7, 2, 3, 1,
       8, 9, 7, 2, 3, 1, 5, 6, 4,
       3, 1, 2, 6, 4, 5, 9, 7, 8,
       6, 4, 5, 9, 7, 8, 3, 1, 2,
       9, 7, 8, 3, 1, 2, 6, 4, 5]) ∧
    (fitness_filled_sudoku (mkGrid
      [1, 2, 3, 4, 5, 6, 7, 8, 9,
       4, 5, 6, 7, 8, 9, 1, 2, 3,
       7, 8, 9, 1, 2, 3, 4, 5, 6,
       2, 3, 1, 5, 6, 4, 8, 9, 7,
       5, 6, 4, 8, 9, 7, 2, 3, 1,
       8, 9, 7, 2, 3, 1, 5, 6, 4,
       3, 1, 2, 6, 4, 5, 9, 7, 8,
       6, 4, 5, 9, 7, 8, 3, 1, 2,
       9, 7, 8, 3, 1, 2, 6, 4, 5]) = 0 ↔
      ((∀ i, i < 9 → ∀ n, 1 ≤ n → n ≤ 9 →
        (whatis_rowlist (mkGrid
      [1, 2, 3, 4, 5, 6, 7, 8, 9,
       4, 5, 6, 7, 8, 9, 1, 2, 3,
       7, 8, 9, 1, 2, 3, 4, 5, 6,
       2, 3, 1, 5, 6, 4, 8, 9, 7,
       5, 6, 4, 8, 9, 7, 2, 3, 1,
       8, 9, 7, 2, 3, 1, 5, 6, 4,
       3, 1, 2, 6, 4, 5, 9, 7, 8,
       6, 4, 5, 9, 7, 8, 3, 1, 2,
       9, 7, 8, 3, 1, 2, 6, 4, 5]) i 0).count n = 1) ∧
       (∀ j, j < 9 → ∀ n, 1 ≤ n → n ≤ 9 →
        (whatis_collist (mkGrid
      [1, 2, 3, 4, 5, 6, 7, 8, 9,
       4, 5, 6, 7, 8, 9, 1, 2, 3,
       7, 8, 9, 1, 2, 3, 4, 5, 6,
       2, 3, 1, 5, 6, 4, 8, 9, 7,
       5, 6, 4, 8, 9, 7, 2, 3, 1,
       8, 9, 7, 2, 3, 1, 5, 6, 4,
       3, 1, 2, 6, 4, 5, 9, 7, 8,
       6, 4, 5, 9, 7, 8, 3, 1, 2,
       9, 7, 8, 3, 1, 2, 6, 4, 5]) 0 j).count n = 1) ∧
       (∀ a b, a < 3 → b < 3 → ∀ n, 1 ≤ n → n ≤ 9 →
        (whatis_blklist (mkGrid
      [1, 2, 3, 4, 5, 6, 7, 8, 9,
       4, 5, 6, 7, 8, 9, 1, 2, 3,
       7, 8, 9, 1, 2, 3, 4, 5, 6,
       2, 3, 1, 5, 6, 4, 8, 9, 7,
       5, 6, 4, 8, 9, 7, 2, 3, 1,
       8, 9, 7, 2, 3, 1, 5, 6, 4,
       3, 1, 2, 6, 4, 5, 9, 7, 8,
       6, 4, 5, 9, 7, 8, 3, 1, 2,
       9, 7, 8, 3, 1, 2, 6, 4, 5]) (3 * a) (3 * b)).count n = 1))) :=
  fitness_nonneg_zero_iff _ (by decide)

/-- C5, counterexample: an input board inside the documented data model
(9×9, values in `[0, 9]`) whose first row holds the clue `5` twice.  The
individual `_rand_fill_sudoku` produces from it (under the oracle that
always picks the first candidate) has a first row containing `5` twice —
not "each symbol exactly once". -/
theorem row_completeness_cex :
    WF (mkGrid (5 :: 5 :: List.replicate 79 0)) ∧
    (∀ row ∈ mkGrid (5 :: 5 :: List.replicate 79 0), ∀ x ∈ row, x ≤ 9) ∧
    (rand_fill (fun _ => 0) (mkGrid (5 :: 5 :: List.replicate 79 0)) 0).1.getD 0 [] ∈
      (rand_fill (fun _ => 0) (mkGrid (5 :: 5 :: List.replicate 79 0)) 0).1 ∧
    ((rand_fill (fun _ => 0) (mkGrid (5 :: 5 :: List.replicate 79 0)) 0).1.getD 0 []).count 5 = 2 := by
  refine ⟨by decide, by decide, by decide, by decide⟩

/-- C5, amended: when every row of the input board has pairwise-distinct
non-zero values (all at most 9), every individual `_rand_fill_sudoku`
produces has each row a permutation of `1..9`; and every child
`_generate_children` builds from two row-complete well-formed parents is
row-complete as well. -/
theorem row_completeness (g0 : Grid)
    (hrows : ∀ row ∈ g0, row.length = 9 ∧ (∀ x ∈ row, x ≤ 9) ∧
      (row.filter (fun c => !decide (c = 0))).Nodup) :
    (∀ (R : Nat → Nat) (t : Nat), ∀ r ∈ (rand_fill R g0 t).1,
      r.Perm (List.range' 1 9)) ∧
    (∀ (g1 g2 : Grid) (R : Nat → Nat) (t : Nat), WF g1 → WF g2 →
      (∀ r ∈ g1, r.Perm (List.range' 1 9)) →
      (∀ r ∈ g2, r.Perm (List.range' 1 9)) →
      ∀ c ∈ (generate_children R g1 g2 t).1, ∀ r ∈ c,
        r.Perm (List.range' 1 9)) := by
  constructor
  · intro R t r hr
    exact rand_fill_rows_perm R g0 t hrows r hr
  · intro g1 g2 R t hwf1 hwf2 hp1 hp2 c hc r hr
    obtain ⟨hwfc, hcrows⟩ := child_rows hwf1 hwf2 _ _ _ hc
    obtain ⟨k, hk, rfl⟩ := List.getElem_of_mem hr
    have hk9 : k < 9 := by rw [hwfc.1] at hk; exact hk
    rw [← List.getD_eq_getElem c [] hk]
    rcases hcrows k hk9 with h | h
    · rw [h]
      refine hp1 _ ?_
      rw [List.getD_eq_getElem g1 [] (by rw [hwf1.1]; exact hk9)]
      exact List.getElem_mem _
    · rw [h]
      refine hp2 _ ?_
      rw [List.getD_eq_getElem g2 [] (by rw [hwf2.1]; exact hk9)]
      exact List.getElem_mem _

theorem row_completeness_witness :
    (∀ (R : Nat → Nat) (t : Nat),
      ∀ r ∈ (rand_fill R (mkGrid (5 :: List.replicate 80 0)) t).1,
        r.Perm (List.range' 1 9)) ∧
    (∀ (g1 g2 : Grid) (R : Nat → Nat) (t : Nat), WF g1 → WF g2 →
      (∀ r ∈ g1, r.Perm (List.range' 1 9)) →
      (∀ r ∈ g2, r.Perm (List.range' 1 9)) →
      ∀ c ∈ (generate_children R g1 g2 t).1, ∀ r ∈ c,
        r.Perm (List.range' 1 9)) :=
  row_completeness (mkGrid (5 :: List.replicate 80 0)) (by decide)

/-- C10: A single `_mutate` call on a well-formed grid leaves the multiset
of values of every row unchanged (each of its at most
`mutation_max_num_cells` performed changes is an in-row swap of two
values), so it preserves row-completeness of any row-complete
individual. -/
theorem mutate_preserves_rows (fx : List (Nat × Nat)) (R : Nat → Nat)
    (g : Grid) (t : Nat) (hwf : WF g) :
    (∀ i, ((ga_mutate fx R g t).1.getD i []).Perm (g.getD i [])) ∧
    ((∀ r ∈ g, r.Perm (List.range' 1 9)) →
      ∀ r ∈ (ga_mutate fx R g t).1, r.Perm (List.range' 1 9)) := by
  obtain ⟨hwfm, hperm⟩ :=
    mutate_aux_rows_perm fx R mutation_max_num_cells g t hwf
  refine ⟨hperm, ?_⟩
  intro hcomplete r hr
  obtain ⟨k, hk, rfl⟩ := List.getElem_of_mem hr
  rw [← List.getD_eq_getElem _ [] hk]
  refine (hperm k).trans ?_
  have hk9 : k < 9 := by
    have hk2 : k < (mutate_aux fx R mutation_max_num_cells g t).1.length := hk
    rw [hwfm.1] at hk2
    exact hk2
  refine hcomplete _ ?_
  rw [List.getD_eq_getElem g [] (by rw [hwf.1]; exact hk9)]
  exact List.getElem_mem _

theorem mutate_preserves_rows_witness :
    (∀ i, ((ga_mutate [] (fun _ => 1)
        (mkGrid (List.replicate 81 3)) 0).1.getD i []).Perm
      ((mkGrid (List.replicate 81 3)).getD i [])) ∧
    ((∀ r ∈ mkGrid (List.replicate 81 3), r.Perm (List.range' 1 9)) →
      ∀ r ∈ (ga_mutate [] (fun _ => 1)
          (mkGrid (List.replicate 81 3)) 0).1, r.Perm (List.range' 1 9)) :=
  mutate_preserves_rows [] (fun _ => 1) (mkGrid (List.replicate 81 3)) 0 (by decide)

/-! ### Population size accounting -/

lemma rsample_length {α : Type} [Inhabited α] (R : Nat → Nat) :
    ∀ (k : Nat) (l : List α) (t : Nat),
      (rsample R k l t).1.length = min k l.length := by
  intro k
  induction k with
  | zero => intro l t; simp [rsample]
  | succ k ih =>
    intro l t
    unfold rsample
    by_cases hl : l.isEmpty
    · rw [if_pos hl]
      rw [List.isEmpty_iff.mp hl]
      simp
    · rw [if_neg hl]
      simp only [List.length_cons]
      rw [ih]
      have hlen : 0 < l.length := by
        cases l with
        | nil => simp at hl
        | cons a l => simp
      rw [List.length_eraseIdx]
      rw [if_pos (Nat.mod_lt _ hlen)]
      omega

lemma rsample_subset {α : Type} [Inhabited α] (R : Nat → Nat) :
    ∀ (k : Nat) (l : List α) (t : Nat), ∀ x ∈ (rsample R k l t).1, x ∈ l := by
  intro k
  induction k with
  | zero => intro l t x hx; cases hx
  | succ k ih =>
    intro l t x hx
    unfold rsample at hx
    by_cases hl : l.isEmpty
    · rw [if_pos hl] at hx
      cases hx
    · rw [if_neg hl] at hx
      have hlen : 0 < l.length := by
        cases l with
        | nil => simp at hl
        | cons a l => simp
      rcases List.mem_cons.mp hx with hx | hx
      · rw [hx, List.getD_eq_getElem l default (Nat.mod_lt _ hlen)]
        exact List.getElem_mem _
      · exact (List.eraseIdx_sublist l _).subset (ih _ _ x hx)

lemma gen_children_aux_length (R : Nat → Nat) (g1 g2 : Grid) :
    ∀ (k t : Nat), (gen_children_aux R g1 g2 k t).1.length = k := by
  intro k
  induction k with
  | zero => intro t; rfl
  | succ k ih => intro t; simp [gen_children_aux, ih]

lemma breed_pairs_length (R : Nat → Nat) :
    ∀ (n : Nat) (l : List Grid) (t : Nat), l.length ≤ n →
      (breed_pairs R l t).1.length = l.length / 2 * num_of_children := by
  intro n
  induction n with
  | zero =>
    intro l t h
    have hl : l = [] := List.length_eq_zero.mp (by omega)
    subst hl
    simp [breed_pairs]
  | succ n ih =>
    intro l t h
    rcases l with _ | ⟨p1, _ | ⟨p2, rest⟩⟩
    · simp [breed_pairs]
    · simp [breed_pairs]
    · show ((generate_children R p1 p2 t).1 ++ _).length = _
      rw [List.length_append, ih rest _ (by simp at h; omega)]
      have hg : (generate_children R p1 p2 t).1.length = num_of_children :=
        gen_children_aux_length R p1 p2 num_of_children t
      rw [hg]
      show num_of_children + rest.length / 2 * num_of_children =
        (rest.length + 1 + 1) / 2 * num_of_children
      have : (rest.length + 1 + 1) / 2 = rest.length / 2 + 1 := by omega
      rw [this]
      ring

lemma mutate_pass_foldl_length (fx : List (Nat × Nat)) (R : Nat → Nat) :
    ∀ (idxs : List Nat) (children : List Grid) (t : Nat),
      (idxs.foldl (fun acc i =>
        let m := ga_mutate fx R (acc.1.getD i []) acc.2
        (acc.1.set i m.1, m.2)) (children, t)).1.length = children.length := by
  intro idxs
  induction idxs with
  | nil => intro children t; rfl
  | cons i is ih =>
    intro children t
    rw [List.foldl_cons, ih]
    simp

lemma mutate_pass_length (fx : List (Nat × Nat)) (R : Nat → Nat)
    (children : List Grid) (t : Nat) :
    (mutate_pass fx R children t).1.length = children.length := by
  unfold mutate_pass
  exact mutate_pass_foldl_length fx R _ children _

/-- One full generation maps a 1000-individual population to a
1000-individual population: 100 elite + 100 sampled parents, 100 pairs ×
10 children, and an in-place mutation pass. -/
lemma next_generation_length (fx : List (Nat × Nat)) (R : Nat → Nat)
    (pop : List Grid) (t : Nat) (h : pop.length = population_size) :
    (next_generation fx R pop t).1.length = population_size := by
  simp only [next_generation]
  rw [mutate_pass_length]
  set sorted := pop.mergeSort
    (fun a b => decide (fitness_filled_sudoku a ≤ fitness_filled_sudoku b))
    with hsorted_def
  have hsorted : sorted.length = 1000 := by
    rw [hsorted_def, List.length_mergeSort]
    exact h
  set s := rsample R num_of_rand (sorted.drop num_of_best) t with hs_def
  have hs : s.1.length = 100 := by
    rw [hs_def, rsample_length, List.length_drop, hsorted]
    rfl
  set parents := sorted.take num_of_best ++ s.1 with hparents_def
  have hparents : parents.length = 200 := by
    rw [hparents_def, List.length_append, List.length_take, hsorted, hs]
    rfl
  set sh := rshuffle R parents s.2 with hsh_def
  have hsh : sh.1.length = 200 := by
    rw [hsh_def]
    unfold rshuffle
    rw [rsample_length, hparents, Nat.min_self]
  set c := breed_pairs R sh.1 sh.2 with hc_def
  have hc : c.1.length = 1000 := by
    rw [hc_def, breed_pairs_length R sh.1.length sh.1 sh.2 le_rfl, hsh]
    rfl
  exact hc

lemma init_pop_aux_length (R : Nat → Nat) (b0 : Grid) :
    ∀ (k t : Nat), (init_pop_aux R b0 k t).1.length = k := by
  intro k
  induction k with
  | zero => intro t; rfl
  | succ k ih => intro t; simp [init_pop_aux, ih]

/-- C8: Population size stability.  Every population `SudokuGA.run` can
hold — the freshly initialised one, and the one left after each
selection/breeding/mutation generation — has exactly `population_size`
(1000) individuals. -/
theorem population_size_stable (b0 : Grid) (pop : List Grid)
    (h : PopState b0 pop) : pop.length = population_size := by
  induction h with
  | init R t => exact init_pop_aux_length R b0 population_size t
  | step R t _ ih => exact next_generation_length _ R _ t ih

theorem population_size_stable_witness :
    (init_population (fun _ => 0) (mkGrid (List.replicate 81 0)) 0).1.length =
      population_size :=
  population_size_stable (mkGrid (List.replicate 81 0)) _
    (PopState.init (fun _ => 0) 0)

/-! ### Everything the run touches stays inside the `InPop` closure -/

lemma mutate_pass_foldl_mem (b0 : Grid) (R : Nat → Nat) :
    ∀ (idxs : List Nat) (l : List Grid) (t : Nat), (∀ g ∈ l, InPop b0 g) →
      ∀ g ∈ (idxs.foldl (fun acc i =>
        let m := ga_mutate (fixed_coords b0) R (acc.1.getD i []) acc.2
        (acc.1.set i m.1, m.2)) (l, t)).1, InPop b0 g := by
  intro idxs
  induction idxs with
  | nil => intro l t hl; exact hl
  | cons i is ih =>
    intro l t hl
    rw [List.foldl_cons]
    dsimp only
    by_cases hi : i < l.length
    · refine ih _ _ ?_
      intro g hg
      rcases List.mem_or_eq_of_mem_set hg with hg | hg
      · exact hl g hg
      · subst hg
        refine InPop.mutStep R _ ?_
        refine hl _ ?_
        rw [List.getD_eq_getElem l [] hi]
        exact List.getElem_mem _
    · refine ih _ _ ?_
      intro g hg
      rw [List.set_eq_of_length_le (by omega)] at hg
      exact hl g hg

lemma mutate_pass_mem (b0 : Grid) (R : Nat → Nat) (children : List Grid)
    (t : Nat) (hc : ∀ g ∈ children, InPop b0 g) :
    ∀ g ∈ (mutate_pass (fixed_coords b0) R children t).1, InPop b0 g := by
  unfold mutate_pass
  exact mutate_pass_foldl_mem b0 R _ children _ hc

lemma breed_pairs_mem (b0 : Grid) (R : Nat → Nat) :
    ∀ (n : Nat) (l : List Grid) (t : Nat), l.length ≤ n →
      (∀ g ∈ l, InPop b0 g) →
      ∀ g ∈ (breed_pairs R l t).1, InPop b0 g := by
  intro n
  induction n with
  | zero =>
    intro l t h hl
    have hln : l = [] := List.length_eq_zero.mp (by omega)
    subst hln
    intro g hg
    simp [breed_pairs] at hg
  | succ n ih =>
    intro l t h hl g hg
    rcases l with _ | ⟨p1, _ | ⟨p2, rest⟩⟩
    · simp [breed_pairs] at hg
    · simp [breed_pairs] at hg
    · have hg2 : g ∈ (generate_children R p1 p2 t).1 ++
          (breed_pairs R rest (generate_children R p1 p2 t).2).1 := hg
      rcases List.mem_append.mp hg2 with hg3 | hg3
      · exact InPop.child R t (hl p1 (by simp)) (hl p2 (by simp)) hg3
      · refine ih rest _ (by simp at h; omega) ?_ g hg3
        intro x hx
        exact hl x (by simp [hx])

lemma init_pop_aux_mem (R : Nat → Nat) (b0 : Grid) :
    ∀ (k t : Nat), ∀ g ∈ (init_pop_aux R b0 k t).1, InPop b0 g := by
  intro k
  induction k with
  | zero => intro t g hg; cases hg
  | succ k ih =>
    intro t g hg
    rcases List.mem_cons.mp hg with hg | hg
    · subst hg
      exact InPop.init R t
    · exact ih _ g hg

/- `init_pop_aux` is only ever reasoned about through the two lemmas
above; keeping it reducible would make later definitional unfolding (for
the run-level lemmas) expand its fuel of 1000 copies. -/
attribute [irreducible] init_pop_aux

lemma next_generation_mem (b0 : Grid) (R : Nat → Nat) (pop : List Grid)
    (t : Nat) (hpop : ∀ g ∈ pop, InPop b0 g) :
    ∀ g ∈ (next_generation (fixed_coords b0) R pop t).1, InPop b0 g := by
  simp only [next_generation]
  apply mutate_pass_mem
  apply breed_pairs_mem b0 R _ _ _ le_rfl
  intro g hg
  have hsub : g ∈ (pop.mergeSort
        (fun a b => decide (fitness_filled_sudoku a ≤ fitness_filled_sudoku b))).take
        num_of_best ++
      (rsample R num_of_rand ((pop.mergeSort
        (fun a b => decide (fitness_filled_sudoku a ≤ fitness_filled_sudoku b))).drop
        num_of_best) t).1 := by
    unfold rshuffle at hg
    exact rsample_subset R _ _ _ g hg
  rcases List.mem_append.mp hsub with hg2 | hg2
  · exact hpop g (List.mem_mergeSort.mp (List.mem_of_mem_take hg2))
  · have := rsample_subset R _ _ _ g hg2
    exact hpop g (List.mem_mergeSort.mp (List.mem_of_mem_drop this))

/-- Under a duplicated clue inside one row, no reachable individual ever
has fitness 0: the duplicate survives in every individual, so its row
cannot contain every symbol. -/
lemma inpop_fitness_pos (b0 : Grid) (h0 : WF b0)
    (hvals : ∀ row ∈ b0, ∀ x ∈ row, x ≤ 9)
    (i j1 j2 : Nat) (hi : i < 9) (hj1 : j1 < 9) (hj2 : j2 < 9) (hne : j1 ≠ j2)
    (hdup : cell b0 i j1 = cell b0 i j2) (hnz : cell b0 i j1 ≠ 0) :
    ∀ g, InPop b0 g → fitness_filled_sudoku g ≠ 0 := by
  intro g hg hzero
  obtain ⟨hwf, hfix⟩ := inpop_wf_fixed h0 hg
  have hrowb0 : b0.getD i [] ∈ b0 := by
    rw [List.getD_eq_getElem b0 [] (by rw [h0.1]; exact hi)]
    exact List.getElem_mem _
  have hv9 : cell b0 i j1 ≤ 9 := by
    refine hvals _ hrowb0 _ ?_
    show (b0.getD i []).getD j1 0 ∈ b0.getD i []
    rw [List.getD_eq_getElem _ 0 (by rw [wf_row_length h0 hi]; exact hj1)]
    exact List.getElem_mem _
  have h1 : cell g i j1 = cell b0 i j1 := hfix i j1 hi hj1 hnz
  have h2 : cell g i j2 = cell b0 i j1 := by
    rw [hdup] at hnz ⊢
    exact hfix i j2 hi hj2 hnz
  have hrlen : (g.getD i []).length = 9 := wf_row_length hwf hi
  have hcount : 2 ≤ (g.getD i []).count (cell b0 i j1) := by
    rcases Nat.lt_or_ge j1 j2 with hlt | hge
    · exact two_le_count_of_getD _ j1 j2 _ hlt (by omega) h1 h2
    · have hlt : j2 < j1 := by omega
      exact two_le_count_of_getD _ j2 j1 _ hlt (by omega) h2 h1
  have hall := ((fitness_zero_iff_mem g).mp hzero).1 i (List.mem_range.mpr hi)
  have hone := count_one_of_all_mem _ hrlen hall (cell b0 i j1)
    (List.mem_range'_1.mpr (by omega))
  have : (whatis_rowlist g i 0).count (cell b0 i j1) =
      (g.getD i []).count (cell b0 i j1) := rfl
  omega

lemma ga_run_cycles_none (b0 : Grid) (R : Nat → Nat)
    (hfit : ∀ g, InPop b0 g → fitness_filled_sudoku g ≠ 0) :
    ∀ (k : Nat) (pop : List Grid) (t : Nat), (∀ g ∈ pop, InPop b0 g) →
      (ga_run_cycles (fixed_coords b0) R k pop t).1 = none := by
  intro k
  induction k with
  | zero => intro pop t _; rfl
  | succ k ih =>
    intro pop t hpop
    simp only [ga_run_cycles]
    have hhead : fitness_filled_sudoku ((pop.mergeSort
        (fun a b => decide (fitness_filled_sudoku a ≤ fitness_filled_sudoku b))).getD
        0 []) ≠ 0 := by
      by_cases hpe : pop = []
      · subst hpe
        rw [List.mergeSort_nil]
        decide
      · have hlen : 0 < (pop.mergeSort
            (fun a b => decide (fitness_filled_sudoku a ≤ fitness_filled_sudoku b))).length := by
          rw [List.length_mergeSort]
          exact List.length_pos.mpr hpe
        have hmem : (pop.mergeSort
            (fun a b => decide (fitness_filled_sudoku a ≤ fitness_filled_sudoku b))).getD
            0 [] ∈ pop := by
          rw [List.getD_eq_getElem _ [] hlen]
          exact List.mem_mergeSort.mp (List.getElem_mem hlen)
        exact hfit _ (hpop _ hmem)
    rw [if_neg hhead]
    exact ih _ _ (next_generation_mem b0 R pop t hpop)

/- As with `init_pop_aux`: later lemmas treat the cycle loop as a black
box, and definitional unfolding of its fuel would be enormous. -/
attribute [irreducible] ga_run_cycles

lemma ga_run_restarts_none (b0 : Grid) (R : Nat → Nat)
    (hfit : ∀ g, InPop b0 g → fitness_filled_sudoku g ≠ 0) :
    ∀ (k t : Nat), (ga_run_restarts (fixed_coords b0) R b0 k t).1 = none := by
  intro k
  induction k with
  | zero => intro t; rfl
  | succ k ih =>
    intro t
    simp only [ga_run_restarts]
    have hnone := ga_run_cycles_none b0 R hfit max_cycles
      (init_population R b0 t).1 (init_population R b0 t).2
      (init_pop_aux_mem R b0 population_size t)
    rw [hnone]
    simp only [Option.isSome_none, Bool.false_eq_true, if_false]
    exact ih _

/- Same black-box discipline as for the loops above. -/
attribute [irreducible] ga_run_restarts

/-- C9: A contradictory input — two equal non-zero clues in one row of a
well-formed board with values in `[0, 9]` — means no individual of any
generation ever reaches fitness 0, and `SudokuGA.run` exhausts all
`max_restart` restarts and fails with its "couldn't find a solution"
exception (modelled as `none`). -/
lemma sudoku_ga_run_eq (R : Nat → Nat) (b0 : Grid) :
    sudoku_ga_run R b0 = ga_run_restarts (fixed_coords b0) R b0 max_restart 0 :=
  rfl

theorem contradictory_input_fails (b0 : Grid) (R : Nat → Nat)
    (h0 : WF b0) (hvals : ∀ row ∈ b0, ∀ x ∈ row, x ≤ 9)
    (i j1 j2 : Nat) (hi : i < 9) (hj1 : j1 < 9) (hj2 : j2 < 9) (hne : j1 ≠ j2)
    (hdup : cell b0 i j1 = cell b0 i j2) (hnz : cell b0 i j1 ≠ 0) :
    (∀ g, InPop b0 g → fitness_filled_sudoku g ≠ 0) ∧
    (sudoku_ga_run R b0).1 = none := by
  have hfit := inpop_fitness_pos b0 h0 hvals i j1 j2 hi hj1 hj2 hne hdup hnz
  refine ⟨hfit, ?_⟩
  rw [sudoku_ga_run_eq]
  exact ga_run_restarts_none b0 R hfit max_restart 0

theorem contradictory_input_fails_witness :
    (∀ g, InPop (mkGrid (5 :: 5 :: List.replicate 79 0)) g →
      fitness_filled_sudoku g ≠ 0) ∧
    (sudoku_ga_run (fun _ => 0) (mkGrid (5 :: 5 :: List.replicate 79 0))).1 = none :=
  contradictory_input_fails (mkGrid (5 :: 5 :: List.replicate 79 0)) (fun _ => 0)
    (by decide) (by decide) 0 0 1 (by decide) (by decide) (by decide)
    (by decide) (by decide) (by decide)

end Sudoku
